import Mathlib

/-!
# Verification of `ply.js`

A shallow embedding of `src/ply.js`, a small data-crunching library: a `Ply`
pipeline holds a source array of records, a list of deferred transformation
steps (`group`, `map`, `filter`, `reduce`), a mode flag (`STEPS.DATASET` /
`STEPS.GROUP`) and the facet list of the most recent `group` call; `transform`
replays the deferred steps over a shallow copy of the source data.

JavaScript values are modelled by `JSVal` (numbers as integers; the claims
under study involve no fractional arithmetic on field values).  Plain objects
are modelled as insertion-ordered association lists.  `Object.keys` enumeration
order follows the ECMAScript rule: array-index-like keys first, in ascending
numeric order, then the remaining string keys in insertion order — this is
observable through `group`/`reduce` and is modelled faithfully by `jsKeys`.

Mutation of working records by user mappers is modelled separately by an
explicit-store model (`HStep`, `transformH`) further down, used for the
frame-style properties of `transform`.
-/

namespace PlyJS

/-- A JavaScript value, at the granularity the library observes: numbers are
modelled as integers, plain objects as insertion-ordered association lists,
and any object whose `constructor` is not `Object` (dates, class instances, …)
collapses to the opaque `vexotic`. -/
inductive JSVal where
  | vnum : Int → JSVal
  | vstr : String → JSVal
  | vbool : Bool → JSVal
  | vnull : JSVal
  | vundef : JSVal
  | varr : List JSVal → JSVal
  | vobj : List (String × JSVal) → JSVal
  | vexotic : JSVal

/-- A record (one data row): a plain object, i.e. an insertion-ordered
association list from field names to values. -/
abbrev Recd := List (String × JSVal)

/-- Property read `r[k]`: the value stored at key `k`, or `undefined` when the
key is absent (JS member access on a missing property). -/
def getField (r : Recd) (k : String) : JSVal :=
  match r.lookup k with
  | some v => v
  | none => JSVal.vundef

/-- Property write `r[k] = v`: updates the value in place when the key exists
(keeping its position in enumeration order), otherwise appends the key at the
end — exactly the ECMAScript plain-object assignment semantics. -/
def setField (r : Recd) (k : String) (v : JSVal) : Recd :=
  match r with
  | [] => [(k, v)]
  | (k', v') :: rest => if k' = k then (k, v) :: rest else (k', v') :: setField rest k v

mutual

/-- Element-to-string coercion used by `Array.prototype.join`: `null` and
`undefined` render as the empty string, numbers and booleans via their
standard string forms, arrays recursively via `join(",")`, plain objects as
`"[object Object]"`. -/
def joinElemString : JSVal → String
  | .vnum n => toString n
  | .vstr s => s
  | .vbool true => "true"
  | .vbool false => "false"
  | .vnull => ""
  | .vundef => ""
  | .varr l => String.intercalate "," (joinElems l)
  | .vobj _ => "[object Object]"
  | .vexotic => "[object Object]"

/-- Coerce every element of an array for `join`. -/
def joinElems : List JSVal → List String
  | [] => []
  | v :: vs => joinElemString v :: joinElems vs

end

/-- `Ply.SEPARATOR`. -/
def SEPARATOR : String := "||"

/-- The facet signature of a record: `f.map(fi => v[fi]).join(Ply.SEPARATOR)`
from the `group` step. -/
def facetKey (facets : List String) (r : Recd) : String :=
  String.intercalate SEPARATOR (facets.map (fun f => joinElemString (getField r f)))

/-- `if (!o.hasOwnProperty(facet)) o[facet] = []; o[facet].push(v)` — append
`x` to the entry for key `k` of an insertion-ordered multimap, creating the
entry at the end when absent. -/
def pushGroup (g : List (String × List α)) (k : String) (x : α) : List (String × List α) :=
  match g with
  | [] => [(k, [x])]
  | (k', xs) :: rest =>
      if k' = k then (k', xs ++ [x]) :: rest else (k', xs) :: pushGroup rest k x

/-- The grouping object built by the deferred `group` step: a fold of
`pushGroup` over the data, keyed by facet signature, in first-seen key order. -/
def groupBy (facets : List String) (data : List Recd) : List (String × List Recd) :=
  data.foldl (fun g r => pushGroup g (facetKey facets r) r) []

/-- The numeric value of a decimal digit string. -/
def digitsVal (cs : List Char) : Nat :=
  cs.foldl (fun acc c => acc * 10 + (c.toNat - 48)) 0

/-- Whether a string is an ECMAScript array index: the canonical decimal form
(digits only, no leading zero except "0" itself) of a natural number below
`2^32 - 1`.  Such keys are enumerated before all other own keys by
`Object.keys`. -/
def isArrayIndexKey (s : String) : Bool :=
  let cs := s.toList
  (!cs.isEmpty) && cs.all (·.isDigit)
    && (!(cs.head? == some '0') || cs.length == 1)
    && decide (digitsVal cs < 2 ^ 32 - 1)

/-- Numeric value of an array-index key (used only to order such keys). -/
def keyNat (s : String) : Nat := digitsVal s.toList

/-- Insert a key into a list of array-index keys sorted by numeric value. -/
def insertIdxKey (s : String) : List String → List String
  | [] => [s]
  | t :: rest => if keyNat s ≤ keyNat t then s :: t :: rest else t :: insertIdxKey s rest

/-- Sort array-index keys ascending by numeric value. -/
def sortIdxKeys (l : List String) : List String := l.foldr insertIdxKey []

/-- `Object.keys` of a plain object whose insertion order is the list order:
array-index-like keys first, ascending numerically, then the other keys in
insertion order (ECMAScript `OrdinaryOwnPropertyKeys`). -/
def jsKeys (g : List (String × α)) : List String :=
  let ks := g.map Prod.fst
  sortIdxKeys (ks.filter (fun k => isArrayIndexKey k))
    ++ ks.filter (fun k => !isArrayIndexKey k)

/-- `Object.assign({}, d)`: a fresh one-level-deep copy of a record, built by
assigning each own enumerable property in order. -/
def copyRec (r : Recd) : Recd :=
  r.foldl (fun acc kv => setField acc kv.1 kv.2) []

/-- The errors the library can raise: the constructor's input validation, the
`filter`-on-grouped-data check, `Ply.sum`'s non-numeric check, and the
runtime `TypeError`s JavaScript raises when a deferred step receives data of
the wrong shape. -/
inductive Err where
  | invalidInput : Err
  | invalidChain : Err
  | nonNumeric : Err
  | typeErr : Err
  deriving Repr, DecidableEq

/-- `STEPS`: the mode flag of the pipeline. -/
inductive Mode where
  | GROUP : Mode
  | DATASET : Mode
  deriving Repr, DecidableEq

/-- One entry of a `reduce` specification object: either an aggregator
function over the record sequence (which may throw, e.g. `Ply.sum`), or a
literal value (`typeof funcs[field] !== 'function'`). -/
inductive AggEntry where
  | fn : (List Recd → Except Err JSVal) → AggEntry
  | lit : JSVal → AggEntry

/-- Evaluate one specification entry on a record sequence. -/
def evalEntry (e : AggEntry) (arr : List Recd) : Except Err JSVal :=
  match e with
  | .fn f => f arr
  | .lit v => .ok v

/-- A deferred chain step, as pushed onto `this.funcs`.  The closures in the
source capture the mode at append time (`map`) or the choice of reducer
(`reduce`); that captured boolean (`true` = the mode was `STEPS.GROUP`) is
recorded explicitly here. -/
inductive Step where
  | group : List String → Step
  | map : Bool → (Recd → Recd) → Step
  | filter : (Recd → Bool) → Step
  | reduce : Bool → List (String × AggEntry) → Step

/-- The in-flight data during `transform`: a plain array of records, or the
grouping object produced by a `group` step. -/
inductive Data where
  | flat : List Recd → Data
  | grouped : List (String × List Recd) → Data

/-- `reduceData` from `Ply.reduce`: build the output point by assigning, for
each key of the specification object, the aggregator's result over `arr` (or
the literal value). -/
def reduceData (funcs : List (String × AggEntry)) (arr : List Recd) : Except Err Recd :=
  funcs.foldlM
    (fun dp fe => do
      let v ← evalEntry fe.2 arr
      pure (setField dp fe.1 v))
    []

/-- `plainReducer`: reduce the whole array to a one-element array. -/
def plainReducer (funcs : List (String × AggEntry)) (data : List Recd) :
    Except Err (List Recd) :=
  (reduceData funcs data).map (fun dp => [dp])

/-- Group lookup `data[gr]` (the key is always present when iterating
`Object.keys(data)`; absent keys give the empty group). -/
def lookupGroup (g : List (String × List Recd)) (k : String) : List Recd :=
  (g.lookup k).getD []

/-- The facet-stamping loop of `groupReducer`:
`this.facets.forEach(f => { datapoint[f] = dataGrouping[0][f] })`. -/
def stampFacets (facets : List String) (first : Recd) (dp : Recd) : Recd :=
  facets.foldl (fun dp f => setField dp f (getField first f)) dp

/-- `groupReducer`: iterate the groups in `Object.keys` order, reduce each
group to a point, stamp the facet fields from the group's first record, and
collect the (copied) points.  Groups produced by `groupBy` are never empty;
for an empty group the first record is modelled as the empty record. -/
def groupReducer (facets : List String) (funcs : List (String × AggEntry))
    (g : List (String × List Recd)) : Except Err (List Recd) :=
  (jsKeys g).foldlM
    (fun acc k => do
      let grp := lookupGroup g k
      let dp ← reduceData funcs grp
      pure (acc ++ [copyRec (stampFacets facets (grp.headD []) dp)]))
    []

/-- Execute one deferred step on the in-flight data.  Shape mismatches (e.g. a
`group` step receiving an already-grouped object, whose `reduce` method does
not exist) raise a JavaScript `TypeError`, modelled as `Err.typeErr`. -/
def runStep (facets : List String) (s : Step) (d : Data) : Except Err Data :=
  match s, d with
  | .group f, .flat l => .ok (.grouped (groupBy f l))
  | .group _, .grouped _ => .error .typeErr
  | .map true m, .grouped g => .ok (.grouped (g.map (fun kg => (kg.1, kg.2.map m))))
  | .map true _, .flat _ => .error .typeErr
  | .map false m, .flat l => .ok (.flat (l.map m))
  | .map false _, .grouped _ => .error .typeErr
  | .filter p, .flat l => .ok (.flat (l.filter p))
  | .filter _, .grouped _ => .error .typeErr
  | .reduce true fs, .grouped g => (groupReducer facets fs g).map Data.flat
  | .reduce true _, .flat _ => .error .typeErr
  | .reduce false fs, .flat l => (plainReducer fs l).map Data.flat
  | .reduce false _, .grouped _ => .error .typeErr

/-- Run a list of deferred steps in order. -/
def run (facets : List String) (steps : List Step) (d : Data) : Except Err Data :=
  steps.foldlM (fun d s => runStep facets s d) d

/-- The pipeline object: the stored source data, the mode flag, the deferred
steps, and the facet list of the most recent `group` call. -/
structure Ply where
  data : List Recd
  step : Mode
  funcs : List Step
  facets : List String

namespace Ply

/-- The pipeline state produced by a successful constructor call. -/
def mk' (data : List Recd) : Ply := ⟨data, .DATASET, [], []⟩

/-- Whether a JavaScript value passes the constructor's per-element check
`typeof d == 'object' && d.constructor == Object` (for `null` the constructor
access itself throws; in either case construction fails). -/
def isPlainObj : JSVal → Bool
  | .vobj _ => true
  | _ => false

/-- The record stored for a validated element. -/
def recOf : JSVal → Recd
  | .vobj l => l
  | _ => []

/-- The constructor: `data` must be an array, every element of which passes
the plain-object check; otherwise an error is thrown at construction time. -/
def mkE (v : JSVal) : Except Err Ply :=
  match v with
  | .varr l => if l.all isPlainObj then .ok (mk' (l.map recOf)) else .error .invalidInput
  | _ => .error .invalidInput

/-- `reset()`. -/
def reset (p : Ply) : Ply := { p with funcs := [], step := .DATASET }

/-- `group(...f)`: push the grouping step, record the facets, set the mode. -/
def group (p : Ply) (f : List String) : Ply :=
  { p with funcs := p.funcs ++ [Step.group f], facets := f, step := .GROUP }

/-- `map(mapper)`: push a mapping step capturing the current mode, then set
the mode to `STEPS.DATASET`.  Note the source never throws here. -/
def map (p : Ply) (m : Recd → Recd) : Ply :=
  { p with funcs := p.funcs ++ [Step.map (p.step = Mode.GROUP) m], step := .DATASET }

/-- `filter(fcn)`: throws `TypeError('cannot filter on a grouped data set')`
when the mode is not `STEPS.DATASET`; otherwise pushes the filtering step
(the mode is left untouched). -/
def filter (p : Ply) (fcn : Recd → Bool) : Except Err Ply :=
  if p.step ≠ Mode.DATASET then .error .invalidChain
  else .ok { p with funcs := p.funcs ++ [Step.filter fcn] }

/-- `reduce(funcs)`: choose `plainReducer` or `groupReducer` according to the
mode at append time, push it, and set the mode to `STEPS.DATASET`. -/
def reduce (p : Ply) (funcs : List (String × AggEntry)) : Ply :=
  { p with funcs := p.funcs ++ [Step.reduce (p.step = Mode.GROUP) funcs], step := .DATASET }

/-- `transform()`: run the deferred steps over a fresh array of shallow copies
of the source records.  (The source also sets `this.step = STEPS.DATASET`;
the pure model returns the produced data, and the mutation claims are handled
by the store-level model below.) -/
def transform (p : Ply) : Except Err Data :=
  run p.facets p.funcs (.flat (p.data.map copyRec))

/-- The `arr.map(d => { if (!Number.isFinite(d[field])) throw ...; return d[field] })`
part of `Ply.sum`: collect the numeric field values left to right, throwing at
the first value that is not a (finite) number.  (Model numbers are integers,
hence always finite; every non-number — including `undefined` for a missing
field — fails the `Number.isFinite` test.) -/
def mapNum (field : String) : List Recd → Except Err (List Int)
  | [] => .ok []
  | d :: rest =>
      match getField d field with
      | .vnum n => (mapNum field rest).map (fun ns => n :: ns)
      | _ => .error Err.nonNumeric

/-- `Ply.sum(field)`: the numeric field values, summed by
`.reduce((a, b) => a + b, 0)`. -/
def sum (field : String) (arr : List Recd) : Except Err JSVal :=
  (mapNum field arr).map (fun vals => .vnum (vals.foldl (· + ·) 0))

end Ply

/-- Insert an element into a sorted list: before the first element `b` with
`le a b`, matching the placement of a stable comparator sort. -/
def ordInsert (le : α → α → Bool) (a : α) : List α → List α
  | [] => [a]
  | b :: l => if le a b then a :: b :: l else b :: ordInsert le a l

/-- A stable insertion sort, modelling `Array.prototype.sort` with a
consistent comparator (the ECMAScript sort is required to be stable). -/
def isort (le : α → α → Bool) : List α → List α
  | [] => []
  | a :: l => ordInsert le a (isort le l)

/-- The numeric value of a record's field, as consumed by the comparator
`(a, b) => a[field] - b[field]` (meaningful when the field is numeric). -/
def numField (field : String) (r : Recd) : Int :=
  match getField r field with
  | .vnum n => n
  | _ => 0

/-- The comparator order of `Ply.quantile`'s sort. -/
def fieldLe (field : String) (a b : Recd) : Bool :=
  decide (numField field a ≤ numField field b)

/-- `Ply.quantile(q, field)`: sort the records ascending by `field`, then take
the field of the record at index `Math.floor((arr.length - 1) * q)`.  An
out-of-range index gives `undefined`, whose member access throws a
`TypeError`. -/
def Ply.quantile (q : ℚ) (field : String) (arr : List Recd) : Except Err JSVal :=
  let sorted := isort (fieldLe field) arr
  let i : ℤ := ⌊((arr.length : ℚ) - 1) * q⌋
  if 0 ≤ i ∧ i.toNat < sorted.length then
    .ok (getField (sorted.getD i.toNat []) field)
  else .error .typeErr

/-! ## Basic lemmas about field access and update -/

theorem lookup_setField (r : Recd) (k k' : String) (v : JSVal) :
    (setField r k v).lookup k' = if k' = k then some v else r.lookup k' := by
  induction r with
  | nil =>
      by_cases h : k' = k
      · simp [setField, List.lookup, h]
      · have hb : (k' == k) = false := by simpa using h
        simp [setField, List.lookup, hb, h]
  | cons kv rest ih =>
      obtain ⟨k0, v0⟩ := kv
      by_cases h0 : k0 = k <;> by_cases h : k' = k
      · have hb : (k' == k) = true := by simpa using h
        simp [setField, h0, List.lookup, hb, h]
      · have hb : (k' == k) = false := by simpa using h
        have hb2 : (k' == k0) = false := by simpa [h0] using h
        simp [setField, h0, List.lookup, hb, hb2, h]
      · have hb2 : (k == k0) = false := by
          simp only [beq_eq_false_iff_ne]
          intro he
          exact h0 he.symm
        rw [h] at ih
        simp [setField, h0, List.lookup, hb2, h, ih]
      · by_cases h2 : k' = k0
        · have hb2 : (k' == k0) = true := by simpa using h2
          simp [setField, h0, List.lookup, hb2, h]
        · have hb2 : (k' == k0) = false := by simpa using h2
          simp [setField, h0, List.lookup, hb2, h, ih]

theorem getField_setField_self (r : Recd) (k : String) (v : JSVal) :
    getField (setField r k v) k = v := by
  simp [getField, lookup_setField]

theorem getField_setField_ne (r : Recd) (k k' : String) (v : JSVal) (h : k' ≠ k) :
    getField (setField r k v) k' = getField r k' := by
  simp [getField, lookup_setField, h]

/-- The keys of `setField r k v`: unchanged when `k` is already present,
otherwise `k` is appended. -/
theorem setField_map_fst (r : Recd) (k : String) (v : JSVal) :
    (setField r k v).map Prod.fst =
      if k ∈ r.map Prod.fst then r.map Prod.fst else r.map Prod.fst ++ [k] := by
  induction r with
  | nil => simp [setField]
  | cons kv rest ih =>
      obtain ⟨k0, v0⟩ := kv
      by_cases h0 : k0 = k
      · subst h0
        simp [setField]
      · have h0' : ¬k = k0 := fun he => h0 he.symm
        by_cases hmem : k ∈ rest.map Prod.fst
        · simp [setField, h0, ih, hmem, h0']
        · simp [setField, h0, ih, hmem, h0']

theorem setField_keys_nodup (r : Recd) (k : String) (v : JSVal)
    (h : (r.map Prod.fst).Nodup) : ((setField r k v).map Prod.fst).Nodup := by
  rw [setField_map_fst]
  by_cases hmem : k ∈ r.map Prod.fst
  · simpa [hmem] using h
  · simp only [hmem, if_false]
    exact List.Nodup.append h (List.nodup_singleton k) (by simpa using hmem)

/-- Assigning a fresh key appends it at the end. -/
theorem setField_append_of_notMem (r : Recd) (k : String) (v : JSVal)
    (hk : k ∉ r.map Prod.fst) : setField r k v = r ++ [(k, v)] := by
  induction r with
  | nil => simp [setField]
  | cons kv rest ih =>
      obtain ⟨k0, v0⟩ := kv
      have hne : k0 ≠ k := fun he => hk (by simp [he])
      have hk' : k ∉ rest.map Prod.fst := fun hm => hk (by simp [hm])
      simp [setField, hne, ih hk']

/-- A record with no duplicate keys is its own shallow copy. -/
theorem copyRec_eq_self (r : Recd) (h : (r.map Prod.fst).Nodup) : copyRec r = r := by
  have aux : ∀ (l acc : Recd), (l.map Prod.fst).Nodup →
      (∀ k, k ∈ l.map Prod.fst → k ∉ acc.map Prod.fst) →
      l.foldl (fun acc kv => setField acc kv.1 kv.2) acc = acc ++ l := by
    intro l
    induction l with
    | nil => intro acc _ _; simp
    | cons kv rest ih =>
        intro acc hnd hdisj
        obtain ⟨k, v⟩ := kv
        have hk : k ∉ acc.map Prod.fst := hdisj k (by simp)
        have hset : setField acc k v = acc ++ [(k, v)] := setField_append_of_notMem _ _ _ hk
        have hnd' : (k :: rest.map Prod.fst).Nodup := by simpa using hnd
        have hk1 : k ∉ rest.map Prod.fst := (List.nodup_cons.mp hnd').1
        have hk2 : (rest.map Prod.fst).Nodup := (List.nodup_cons.mp hnd').2
        have hstep := ih (acc ++ [(k, v)]) hk2
          (by
            intro k' hk'
            simp only [List.map_append, List.mem_append]
            rintro (h1 | h2)
            · exact hdisj k' (by simp [hk']) h1
            · have he : k' = k := by simpa using h2
              subst he
              exact hk1 hk')
        simp only [List.foldl_cons, hset]
        rw [hstep]
        simp
  simpa using aux r [] h (by simp)

/-! ## Facet stamping -/

theorem getField_stampFacets_notMem (facets : List String) (first dp : Recd) (k : String)
    (h : k ∉ facets) :
    getField (stampFacets facets first dp) k = getField dp k := by
  induction facets generalizing dp with
  | nil => simp [stampFacets]
  | cons f0 rest ih =>
      have hne : k ≠ f0 := fun he => h (by simp [he])
      have hrest : k ∉ rest := fun hm => h (List.mem_cons_of_mem _ hm)
      show getField (stampFacets rest first (setField dp f0 (getField first f0))) k
          = getField dp k
      rw [ih (setField dp f0 (getField first f0)) hrest]
      exact getField_setField_ne _ _ _ _ hne

theorem getField_stampFacets_mem (facets : List String) (first dp : Recd) (f : String)
    (h : f ∈ facets) :
    getField (stampFacets facets first dp) f = getField first f := by
  induction facets generalizing dp with
  | nil => cases h
  | cons f0 rest ih =>
      show getField (stampFacets rest first (setField dp f0 (getField first f0))) f
          = getField first f
      by_cases hmem : f ∈ rest
      · exact ih _ hmem
      · have h1 : f = f0 := by
          rcases List.mem_cons.mp h with h1 | h2
          · exact h1
          · exact absurd h2 hmem
        subst h1
        rw [getField_stampFacets_notMem rest first _ f hmem]
        exact getField_setField_self _ _ _

theorem stampFacets_keys_nodup (facets : List String) (first dp : Recd)
    (h : (dp.map Prod.fst).Nodup) :
    ((stampFacets facets first dp).map Prod.fst).Nodup := by
  induction facets generalizing dp with
  | nil => simpa [stampFacets] using h
  | cons f rest ih =>
      simp only [stampFacets, List.foldl_cons] at *
      exact ih _ (setField_keys_nodup _ _ _ h)

/-! ## Reduction lemmas -/

theorem reduceData_aux (arr : List Recd) :
    ∀ (spec : List (String × AggEntry)) (dp r : Recd),
    (spec.map Prod.fst).Nodup →
    spec.foldlM (fun dp fe => do
      let v ← evalEntry fe.2 arr
      pure (setField dp fe.1 v)) dp = .ok r →
    (∀ k e, (k, e) ∈ spec → ∃ v, evalEntry e arr = .ok v ∧ getField r k = v) ∧
    (∀ k, k ∉ spec.map Prod.fst → getField r k = getField dp k) := by
  intro spec
  induction spec with
  | nil =>
      intro dp r _ hfold
      simp only [List.foldlM_nil] at hfold
      cases hfold
      exact ⟨fun k e h => absurd h (List.not_mem_nil _), fun k _ => rfl⟩
  | cons fe rest ih =>
      intro dp r hnd hfold
      obtain ⟨k0, e0⟩ := fe
      have hnd' : (k0 :: rest.map Prod.fst).Nodup := by simpa using hnd
      have hk0 : k0 ∉ rest.map Prod.fst := (List.nodup_cons.mp hnd').1
      have hndr : (rest.map Prod.fst).Nodup := (List.nodup_cons.mp hnd').2
      simp only [List.foldlM_cons] at hfold
      cases hv : evalEntry e0 arr with
      | error e =>
          rw [hv] at hfold
          simp [Bind.bind, Except.bind, Functor.map, Except.map] at hfold
      | ok v =>
          rw [hv] at hfold
          simp only [Bind.bind, Except.bind, Functor.map, Except.map, pure] at hfold
          have hrest := ih (setField dp k0 v) r hndr hfold
          constructor
          · intro k e hmem
            rcases List.mem_cons.mp hmem with hhead | htail
            · obtain ⟨hk, he⟩ := Prod.mk.injEq .. ▸ hhead
              cases hhead
              refine ⟨v, hv, ?_⟩
              rw [hrest.2 k0 hk0]
              exact getField_setField_self _ _ _
            · exact hrest.1 k e htail
          · intro k hk
            have hk1 : k ≠ k0 := fun he => hk (by simp [he])
            have hk2 : k ∉ rest.map Prod.fst := fun hm => hk (by simp [hm])
            rw [hrest.2 k hk2]
            exact getField_setField_ne _ _ _ _ hk1

/-- The values a successful `reduceData` gives to the specification keys. -/
theorem reduceData_ok_getField (spec : List (String × AggEntry)) (arr : List Recd)
    (r : Recd)
    (hnd : (spec.map Prod.fst).Nodup) (h : reduceData spec arr = .ok r)
    (k : String) (e : AggEntry) (hmem : (k, e) ∈ spec) :
    ∃ v, evalEntry e arr = .ok v ∧ getField r k = v :=
  (reduceData_aux arr spec [] r hnd h).1 k e hmem

/-- A successful `reduceData` has no duplicate keys. -/
theorem reduceData_keys_nodup (spec : List (String × AggEntry)) (arr : List Recd)
    (r : Recd)
    (h : reduceData spec arr = .ok r) : (r.map Prod.fst).Nodup := by
  have aux : ∀ (l : List (String × AggEntry)) (dp r : Recd),
      (dp.map Prod.fst).Nodup →
      l.foldlM (fun dp fe => do
        let v ← evalEntry fe.2 arr
        pure (setField dp fe.1 v)) dp = .ok r →
      (r.map Prod.fst).Nodup := by
    intro l
    induction l with
    | nil =>
        intro dp r hdp hfold
        simp only [List.foldlM_nil] at hfold
        cases hfold
        exact hdp
    | cons fe rest ih =>
        intro dp r hdp hfold
        simp only [List.foldlM_cons] at hfold
        cases hv : evalEntry fe.2 arr with
        | error e =>
            rw [hv] at hfold
            simp [Bind.bind, Except.bind, Functor.map, Except.map] at hfold
        | ok v =>
            rw [hv] at hfold
            simp only [Bind.bind, Except.bind, Functor.map, Except.map, pure] at hfold
            exact ih _ r (setField_keys_nodup _ _ _ hdp) hfold
  exact aux spec [] r (by simp) h

/-! ## Executing deferred chains -/

theorem run_append (facets : List String) (steps : List Step) (s : Step) (d : Data) :
    run facets (steps ++ [s]) d = (run facets steps d) >>= runStep facets s := by
  simp [run, List.foldlM_append]

/-- Appending one step to a pipeline post-composes its execution. -/
theorem transform_append_step (p : Ply) (s : Step) :
    Ply.transform { p with funcs := p.funcs ++ [s] } =
      p.transform >>= runStep p.facets s := by
  simp only [Ply.transform, run_append]

/-- When no key of the object is array-index-like, `Object.keys` order is
plain insertion order. -/
theorem jsKeys_of_no_index {α : Type} (g : List (String × α))
    (h : ∀ k ∈ g.map Prod.fst, isArrayIndexKey k = false) :
    jsKeys g = g.map Prod.fst := by
  unfold jsKeys
  have h1 : (g.map Prod.fst).filter (fun k => isArrayIndexKey k) = [] := by
    rw [List.filter_eq_nil_iff]
    intro a ha
    simp [h a ha]
  have h2 : (g.map Prod.fst).filter (fun k => !isArrayIndexKey k) = g.map Prod.fst := by
    rw [List.filter_eq_self]
    intro a ha
    simp [h a ha]
  simp [h1, h2, sortIdxKeys]

theorem foldlM_congr {m : Type _ → Type _} [Monad m] {α β : Type _} (f₁ f₂ : β → α → m β) :
    ∀ (l : List α) (b : β), (∀ (b' : β) (a : α), a ∈ l → f₁ b' a = f₂ b' a) →
    l.foldlM f₁ b = l.foldlM f₂ b := by
  intro l
  induction l with
  | nil => intro b _; rfl
  | cons a l ih =>
      intro b h
      simp only [List.foldlM_cons]
      rw [h b a (by simp)]
      congr 1
      funext b'
      exact ih b' (fun b'' a' ha' => h b'' a' (List.mem_cons_of_mem _ ha'))

theorem lookupGroup_cons_self (k0 : String) (as0 : List Recd)
    (g : List (String × List Recd)) :
    lookupGroup ((k0, as0) :: g) k0 = as0 := by
  simp [lookupGroup, List.lookup]

theorem lookupGroup_cons_ne (k k0 : String) (as0 : List Recd)
    (g : List (String × List Recd)) (h : k ≠ k0) :
    lookupGroup ((k0, as0) :: g) k = lookupGroup g k := by
  have hb : (k == k0) = false := by simpa using h
  simp [lookupGroup, List.lookup, hb]

theorem groupReducer_aux (facets : List String) (funcs : List (String × AggEntry)) :
    ∀ (g : List (String × List Recd)) (rs : List Recd) (acc : List Recd),
    (g.map Prod.fst).Nodup →
    List.Forall₂ (fun kg r => reduceData funcs kg.2 = .ok r) g rs →
    ((g.map Prod.fst).foldlM
      (fun acc k => do
        let grp := lookupGroup g k
        let dp ← reduceData funcs grp
        pure (acc ++ [copyRec (stampFacets facets (grp.headD []) dp)]))
      acc
    : Except Err (List Recd))
    = .ok (acc ++
        List.zipWith (fun kg r => copyRec (stampFacets facets (kg.2.headD []) r)) g rs) := by
  intro g
  induction g with
  | nil =>
      intro rs acc _ hred
      cases hred
      simp [pure, Except.pure]
  | cons kg g' ih =>
      intro rs acc hnd hred
      obtain ⟨k0, as0⟩ := kg
      cases hred with
      | cons hr htail =>
          rename_i r0 rs'
          have hnd' : (k0 :: g'.map Prod.fst).Nodup := by simpa using hnd
          have hk0 : k0 ∉ g'.map Prod.fst := (List.nodup_cons.mp hnd').1
          have hndr : (g'.map Prod.fst).Nodup := (List.nodup_cons.mp hnd').2
          simp only [List.map_cons, List.foldlM_cons, lookupGroup_cons_self]
          rw [hr]
          simp only [Bind.bind, Except.bind, pure, Except.pure]
          rw [foldlM_congr _ (fun acc k => do
              let grp := lookupGroup g' k
              let dp ← reduceData funcs grp
              pure (acc ++ [copyRec (stampFacets facets (grp.headD []) dp)]))
            (g'.map Prod.fst) _
            (by
              intro acc' k hk
              have hne : k ≠ k0 := fun he => hk0 (he ▸ hk)
              rw [lookupGroup_cons_ne _ _ _ _ hne]
              rfl)]
          rw [ih rs' _ hndr htail]
          simp

/-- `groupReducer` on a grouping with no array-index-like and no duplicate
signatures, when each group reduces successfully: one output record per group,
in the grouping's own (first-seen) order — the group's reduced point with the
facet fields stamped from its first record. -/
theorem groupReducer_ok (facets : List String) (funcs : List (String × AggEntry))
    (g : List (String × List Recd)) (rs : List Recd)
    (hidx : ∀ k ∈ g.map Prod.fst, isArrayIndexKey k = false)
    (hnd : (g.map Prod.fst).Nodup)
    (hred : List.Forall₂ (fun kg r => reduceData funcs kg.2 = .ok r) g rs) :
    groupReducer facets funcs g =
      .ok (List.zipWith (fun kg r => copyRec (stampFacets facets (kg.2.headD []) r)) g rs) := by
  unfold groupReducer
  rw [jsKeys_of_no_index g hidx]
  simpa using groupReducer_aux facets funcs g rs [] hnd hred

/-! ## Aggregator lemmas -/

theorem mapNum_ok (field : String) (arr : List Recd)
    (h : ∀ r ∈ arr, ∃ n : Int, getField r field = .vnum n) :
    Ply.mapNum field arr = .ok (arr.map (numField field)) := by
  induction arr with
  | nil => rfl
  | cons r rest ih =>
      obtain ⟨n, hn⟩ := h r (by simp)
      simp only [Ply.mapNum, hn]
      rw [ih (fun r' hr => h r' (List.mem_cons_of_mem _ hr))]
      simp [Except.map, numField, hn]

theorem mapNum_error (field : String) (arr : List Recd)
    (h : ∃ r ∈ arr, ∀ n : Int, getField r field ≠ .vnum n) :
    Ply.mapNum field arr = .error Err.nonNumeric := by
  induction arr with
  | nil => simp at h
  | cons r rest ih =>
      by_cases hnum : ∃ n : Int, getField r field = .vnum n
      · obtain ⟨n, hg⟩ := hnum
        obtain ⟨r', hmem, hbad⟩ := h
        have hm : r' ∈ rest := by
          rcases List.mem_cons.mp hmem with he | hm
          · subst he
            exact absurd hg (hbad n)
          · exact hm
        simp only [Ply.mapNum, hg]
        rw [ih ⟨r', hm, hbad⟩]
        rfl
      · have hmatch : ∀ v, getField r field = v → (¬∃ n : Int, v = .vnum n) →
            Ply.mapNum field (r :: rest) = .error Err.nonNumeric := by
          intro v hv hnv
          cases v <;> simp only [Ply.mapNum, hv]
          exact absurd ⟨_, rfl⟩ hnv
        exact hmatch _ rfl (by simpa using fun n h => hnum ⟨n, by simp [h]⟩)

/-! ## Claim theorems -/

/-- **C7** — `filter` fails with InvalidChainState exactly when the mode is
GROUPED; in FLAT mode it appends a deferred step that keeps precisely the
records satisfying the predicate, in order (the retained list is a sublist of
the input), and leaves the mode unchanged. -/
theorem C7_filter_contract (p : Ply) (fn : Recd → Bool) :
    (p.step = Mode.GROUP → p.filter fn = .error .invalidChain)
    ∧ (p.step = Mode.DATASET →
        p.filter fn = .ok { p with funcs := p.funcs ++ [Step.filter fn] }
        ∧ ∀ (facets : List String) (l : List Recd),
            runStep facets (Step.filter fn) (.flat l) = .ok (.flat (l.filter fn))
            ∧ (l.filter fn).Sublist l
            ∧ ∀ r, r ∈ l.filter fn ↔ r ∈ l ∧ fn r = true) := by
  constructor
  · intro h
    simp [Ply.filter, h]
  · intro h
    refine ⟨by simp [Ply.filter, h], fun facets l => ⟨rfl, List.filter_sublist l, fun r => ?_⟩⟩
    exact List.mem_filter

/-- Witness for C7 at concrete pipelines: filtering a grouped pipeline throws,
filtering a flat one appends the step. -/
theorem C7_filter_contract_witness :
    ((Ply.mk' [[("a", .vnum 1)]]).group ["a"]).filter (fun _ => true)
      = .error .invalidChain
    ∧ (Ply.mk' [[("a", .vnum 1)]]).filter (fun _ => true)
      = .ok { Ply.mk' [[("a", .vnum 1)]] with
                funcs := [Step.filter (fun _ => true)] } :=
  ⟨(C7_filter_contract ((Ply.mk' [[("a", .vnum 1)]]).group ["a"]) (fun _ => true)).1 rfl,
   ((C7_filter_contract (Ply.mk' [[("a", .vnum 1)]]) (fun _ => true)).2 rfl).1⟩

/-- **C8** — `Ply.sum field` fails with NonNumericValue exactly when some
record's field value is not a (finite) number; on all-numeric data it returns
the arithmetic sum.  The error is only produced when the aggregator itself
runs: appending `reduce` never evaluates the aggregator — it only pushes the
deferred step (third conjunct). -/
theorem C8_sum_contract (field : String) (arr : List Recd) :
    (Ply.sum field arr = .error .nonNumeric ↔
      ∃ r ∈ arr, ∀ n : Int, getField r field ≠ .vnum n)
    ∧ ((∀ r ∈ arr, ∃ n : Int, getField r field = .vnum n) →
        Ply.sum field arr = .ok (.vnum ((arr.map (numField field)).foldl (· + ·) 0)))
    ∧ ∀ (p : Ply) (spec : List (String × AggEntry)),
        (p.reduce spec).funcs
          = p.funcs ++ [Step.reduce (p.step = Mode.GROUP) spec] := by
  have hok : (∀ r ∈ arr, ∃ n : Int, getField r field = .vnum n) →
      Ply.sum field arr = .ok (.vnum ((arr.map (numField field)).foldl (· + ·) 0)) := by
    intro h
    simp [Ply.sum, mapNum_ok field arr h, Except.map]
  refine ⟨⟨fun herr => ?_, fun hbad => ?_⟩, hok, fun p spec => rfl⟩
  · by_contra hno
    push_neg at hno
    have hall : ∀ r ∈ arr, ∃ n : Int, getField r field = .vnum n := by
      intro r hr
      by_contra hn
      push_neg at hn
      exact absurd (hno r hr) (by simpa using hn)
    rw [hok hall] at herr
    cases herr
  · simp [Ply.sum, mapNum_error field arr hbad, Except.map]

/-- Witness for C8: summing a string-valued field fails with NonNumericValue,
summing a numeric field adds up. -/
theorem C8_sum_contract_witness :
    Ply.sum "a" [[("a", .vstr "z")]] = .error .nonNumeric
    ∧ Ply.sum "a" [[("a", .vnum 1)], [("a", .vnum 2)]] = .ok (.vnum 3) := by
  constructor
  · exact (C8_sum_contract "a" [[("a", .vstr "z")]]).1.mpr
      ⟨[("a", .vstr "z")], by simp, by intro n h; cases h⟩
  · exact ((C8_sum_contract "a" [[("a", .vnum 1)], [("a", .vnum 2)]]).2.1
      (by
        intro r hr
        simp only [List.mem_cons, List.not_mem_nil, or_false] at hr
        rcases hr with h | h
        · exact ⟨1, by rw [h]; rfl⟩
        · exact ⟨2, by rw [h]; rfl⟩)).trans rfl

/-- Appending a `reduce` call post-composes execution with the chosen reducer
(the reducer choice is captured from the mode at append time). -/
theorem transform_reduce (p : Ply) (spec : List (String × AggEntry)) :
    (p.reduce spec).transform
      = p.transform >>= runStep p.facets (Step.reduce (p.step = Mode.GROUP) spec) := by
  simp only [Ply.reduce, Ply.transform, run_append]

/-- **C1 counterexample** — the claim says that on a GROUPED pipeline `map`
fails with InvalidChainState and appends nothing.  In the code `map` never
throws: on this concrete grouped pipeline it appends a second deferred step
(so `funcs` grows from 1 to 2), and the subsequent `transform` happily applies
the mapper inside the group. -/
theorem C1_map_on_grouped_counterexample :
    (((Ply.mk' [[("c", .vstr "x")]]).group ["c"]).map id).funcs.length = 2
    ∧ (((Ply.mk' [[("c", .vstr "x")]]).group ["c"]).map
        (fun r => setField r "k" (.vnum 7))).transform
      = .ok (.grouped [("x", [[("c", .vstr "x"), ("k", .vnum 7)]])]) :=
  ⟨rfl, rfl⟩

/-- **C1 (amended)** — `map` never fails, whatever the mode: when the mode is
GROUPED at the time of the call it appends a deferred step that applies the
mapper to each group's records (the data keeps its grouped shape at that
step), and it sets the mode to FLAT. -/
theorem C1_map_on_grouped (p : Ply) (m : Recd → Recd) (h : p.step = Mode.GROUP) :
    (p.map m).step = Mode.DATASET
    ∧ (p.map m).funcs = p.funcs ++ [Step.map true m]
    ∧ ∀ (facets : List String) (g : List (String × List Recd)),
        runStep facets (Step.map true m) (.grouped g)
          = .ok (.grouped (g.map (fun kg => (kg.1, kg.2.map m)))) := by
  refine ⟨rfl, ?_, fun facets g => rfl⟩
  simp [Ply.map, h]

/-- Witness for C1 (amended) at a concrete grouped pipeline. -/
theorem C1_map_on_grouped_witness :
    (((Ply.mk' [[("c", .vstr "x")]]).group ["c"]).map id).step = Mode.DATASET
    ∧ (((Ply.mk' [[("c", .vstr "x")]]).group ["c"]).map id).funcs
        = ((Ply.mk' [[("c", .vstr "x")]]).group ["c"]).funcs ++ [Step.map true id] :=
  ⟨(C1_map_on_grouped ((Ply.mk' [[("c", .vstr "x")]]).group ["c"]) id rfl).1,
   (C1_map_on_grouped ((Ply.mk' [[("c", .vstr "x")]]).group ["c"]) id rfl).2.1⟩

/-- **C3** — appending `reduce` to a FLAT-mode pipeline makes `transform`
produce the one-record result of `reduceData` over the whole current sequence
`l` (first conjunct: output is exactly the one-element list, or the
aggregator's error); each specification key receives the aggregator's result
over the entire sequence, or the literal (second conjunct). -/
theorem C3_flat_reduce (p : Ply) (spec : List (String × AggEntry)) (l : List Recd)
    (hstep : p.step = Mode.DATASET)
    (hrun : run p.facets p.funcs (.flat (p.data.map copyRec)) = .ok (.flat l))
    (hnd : (spec.map Prod.fst).Nodup) :
    (p.reduce spec).transform = (reduceData spec l).map (fun r => Data.flat [r])
    ∧ ∀ r, reduceData spec l = .ok r →
        (p.reduce spec).transform = .ok (.flat [r])
        ∧ ∀ k e, (k, e) ∈ spec → ∃ v, evalEntry e l = .ok v ∧ getField r k = v := by
  have htr : (p.reduce spec).transform
      = (reduceData spec l).map (fun r => Data.flat [r]) := by
    rw [transform_reduce]
    show (Ply.transform p >>= runStep p.facets (Step.reduce (p.step = Mode.GROUP) spec)) = _
    rw [show Ply.transform p = .ok (.flat l) from hrun, hstep]
    show runStep p.facets (Step.reduce false spec) (.flat l) = _
    simp only [runStep, plainReducer]
    cases reduceData spec l <;> rfl
  refine ⟨htr, fun r hr => ⟨?_, fun k e hke => reduceData_ok_getField spec l r hnd hr k e hke⟩⟩
  rw [htr, hr]
  rfl

/-- Witness for C3: the spec's flat-reduce example
`[{a:1},{a:2},{a:3}]` with `{total: arr => arr.length, sum: aggregatorSum('a')}`
transforms to the single record `{total: 3, sum: 6}`. -/
theorem C3_flat_reduce_witness :
    ((Ply.mk' [[("a", .vnum 1)], [("a", .vnum 2)], [("a", .vnum 3)]]).reduce
        [("total", .fn (fun arr => .ok (.vnum arr.length))), ("sum", .fn (Ply.sum "a"))]).transform
      = .ok (.flat [[("total", .vnum 3), ("sum", .vnum 6)]]) :=
  ((C3_flat_reduce (Ply.mk' [[("a", .vnum 1)], [("a", .vnum 2)], [("a", .vnum 3)]])
      [("total", .fn (fun arr => .ok (.vnum arr.length))), ("sum", .fn (Ply.sum "a"))]
      [[("a", .vnum 1)], [("a", .vnum 2)], [("a", .vnum 3)]]
      rfl rfl (by decide)).2
    [("total", .vnum 3), ("sum", .vnum 6)] rfl).1

/-- **C2 counterexample** — the claim promises output in first-seen
facet-signature order.  With numeric facet values the signatures are
array-index-like strings ("2", "1"), which `Object.keys` enumerates in
ascending numeric order, not insertion order: on
`[{c:2,v:1},{c:1,v:2}]`, `group('c').reduce({n: arr => arr.length})` the
group with signature "1" comes out first although signature "2" was seen
first. -/
theorem C2_grouped_reduce_counterexample :
    (((Ply.mk' [[("c", .vnum 2), ("v", .vnum 1)], [("c", .vnum 1), ("v", .vnum 2)]]).group
        ["c"]).reduce [("n", .fn (fun arr => .ok (.vnum arr.length)))]).transform
      = .ok (.flat [[("n", .vnum 1), ("c", .vnum 1)], [("n", .vnum 1), ("c", .vnum 2)]])
    ∧ ((Except.ok (Data.flat [[("n", .vnum 1), ("c", .vnum 1)], [("n", .vnum 1), ("c", .vnum 2)]])
        : Except Err Data)
      ≠ .ok (.flat [[("n", .vnum 1), ("c", .vnum 2)], [("n", .vnum 1), ("c", .vnum 1)]])) := by
  refine ⟨rfl, ?_⟩
  intro h
  simp only [Except.ok.injEq, Data.flat.injEq, List.cons.injEq, Prod.mk.injEq,
    JSVal.vnum.injEq] at h
  omega

/-- **C2 (amended)** — grouped reduce: provided no facet signature is an
array-index-like string (in which case `Object.keys` departs from insertion
order) and the signatures and spec keys have no duplicates, `transform`
produces one output record per group, in the grouping's first-seen order; each
spec key **that is not a facet field** holds the aggregator's result over that
group's records (or the literal), each facet field holds the value from the
group's first record, and the mode is FLAT after the `reduce` call. -/
theorem C2_grouped_reduce (p : Ply) (spec : List (String × AggEntry))
    (g : List (String × List Recd)) (rs : List Recd)
    (hstep : p.step = Mode.GROUP)
    (hrun : run p.facets p.funcs (.flat (p.data.map copyRec)) = .ok (.grouped g))
    (hidx : ∀ k ∈ g.map Prod.fst, isArrayIndexKey k = false)
    (hgnd : (g.map Prod.fst).Nodup)
    (hsnd : (spec.map Prod.fst).Nodup)
    (hred : List.Forall₂ (fun kg r => reduceData spec kg.2 = .ok r) g rs) :
    (p.reduce spec).transform
      = .ok (.flat (List.zipWith
          (fun kg r => copyRec (stampFacets p.facets (kg.2.headD []) r)) g rs))
    ∧ (p.reduce spec).step = Mode.DATASET
    ∧ ∀ kg r, (kg, r) ∈ g.zip rs →
        (∀ f ∈ p.facets,
            getField (copyRec (stampFacets p.facets (kg.2.headD []) r)) f
              = getField (kg.2.headD []) f)
        ∧ (∀ k e, (k, e) ∈ spec → k ∉ p.facets →
            ∃ v, evalEntry e kg.2 = .ok v
              ∧ getField (copyRec (stampFacets p.facets (kg.2.headD []) r)) k = v) := by
  have htr : (p.reduce spec).transform
      = .ok (.flat (List.zipWith
          (fun kg r => copyRec (stampFacets p.facets (kg.2.headD []) r)) g rs)) := by
    rw [transform_reduce]
    rw [show Ply.transform p = .ok (.grouped g) from hrun, hstep]
    show runStep p.facets (Step.reduce true spec) (.grouped g) = _
    simp only [runStep]
    rw [groupReducer_ok p.facets spec g rs hidx hgnd hred]
    rfl
  refine ⟨htr, rfl, ?_⟩
  intro kg r hmem
  have hr : reduceData spec kg.2 = .ok r := List.forall₂_zip hred hmem
  have hrnd : (r.map Prod.fst).Nodup := reduceData_keys_nodup spec kg.2 r hr
  have hstnd : ((stampFacets p.facets (kg.2.headD []) r).map Prod.fst).Nodup :=
    stampFacets_keys_nodup _ _ _ hrnd
  have hcp : copyRec (stampFacets p.facets (kg.2.headD []) r)
      = stampFacets p.facets (kg.2.headD []) r := copyRec_eq_self _ hstnd
  rw [hcp]
  constructor
  · intro f hf
    exact getField_stampFacets_mem _ _ _ _ hf
  · intro k e hke hnk
    obtain ⟨v, hv, hg⟩ := reduceData_ok_getField spec kg.2 r hsnd hr k e hke
    refine ⟨v, hv, ?_⟩
    rw [getField_stampFacets_notMem _ _ _ _ hnk]
    exact hg

/-- Witness for C2 (amended): the spec's own example
`[{c:'x',v:1},{c:'y',v:2},{c:'x',v:3}]`,
`group('c').reduce({n: arr => arr.length, total: aggregatorSum('v')})`
transforms to `[{n:2,total:4,c:'x'},{n:1,total:2,c:'y'}]`. -/
theorem C2_grouped_reduce_witness :
    (((Ply.mk' [[("c", .vstr "x"), ("v", .vnum 1)], [("c", .vstr "y"), ("v", .vnum 2)],
        [("c", .vstr "x"), ("v", .vnum 3)]]).group ["c"]).reduce
      [("n", .fn (fun arr => .ok (.vnum arr.length))), ("total", .fn (Ply.sum "v"))]).transform
      = .ok (.flat [[("n", .vnum 2), ("total", .vnum 4), ("c", .vstr "x")],
                    [("n", .vnum 1), ("total", .vnum 2), ("c", .vstr "y")]]) :=
  (C2_grouped_reduce
    ((Ply.mk' [[("c", .vstr "x"), ("v", .vnum 1)], [("c", .vstr "y"), ("v", .vnum 2)],
        [("c", .vstr "x"), ("v", .vnum 3)]]).group ["c"])
    [("n", .fn (fun arr => .ok (.vnum arr.length))), ("total", .fn (Ply.sum "v"))]
    [("x", [[("c", .vstr "x"), ("v", .vnum 1)], [("c", .vstr "x"), ("v", .vnum 3)]]),
     ("y", [[("c", .vstr "y"), ("v", .vnum 2)]])]
    [[("n", .vnum 2), ("total", .vnum 4)], [("n", .vnum 1), ("total", .vnum 2)]]
    rfl rfl (by decide) (by decide) (by decide)
    (List.Forall₂.cons rfl (List.Forall₂.cons rfl List.Forall₂.nil))).1

/-- **C10** — in `groupReducer` the facet stamping runs after the aggregators:
even when a spec key `f` is itself one of the facet fields, the output
record's value at `f` is the facet value from the group's first record (the
aggregated value is overwritten). -/
theorem C10_facet_overwrites_spec_key (facets : List String)
    (spec : List (String × AggEntry)) (g : List (String × List Recd)) (rs : List Recd)
    (f : String) (e : AggEntry)
    (hf : f ∈ facets) (hfe : (f, e) ∈ spec)
    (hidx : ∀ k ∈ g.map Prod.fst, isArrayIndexKey k = false)
    (hgnd : (g.map Prod.fst).Nodup)
    (hred : List.Forall₂ (fun kg r => reduceData spec kg.2 = .ok r) g rs) :
    groupReducer facets spec g
      = .ok (List.zipWith
          (fun kg r => copyRec (stampFacets facets (kg.2.headD []) r)) g rs)
    ∧ ∀ kg r, (kg, r) ∈ g.zip rs →
        getField (copyRec (stampFacets facets (kg.2.headD []) r)) f
          = getField (kg.2.headD []) f := by
  refine ⟨groupReducer_ok facets spec g rs hidx hgnd hred, ?_⟩
  intro kg r hmem
  have hr : reduceData spec kg.2 = .ok r := List.forall₂_zip hred hmem
  have hrnd : (r.map Prod.fst).Nodup := reduceData_keys_nodup spec kg.2 r hr
  have hstnd : ((stampFacets facets (kg.2.headD []) r).map Prod.fst).Nodup :=
    stampFacets_keys_nodup _ _ _ hrnd
  rw [copyRec_eq_self _ hstnd]
  exact getField_stampFacets_mem _ _ _ _ hf

/-- Witness for C10: facet `c` also appears as a spec key with `sum('v')`
(which computes 4), yet the output record carries the facet value "x". -/
theorem C10_facet_overwrites_spec_key_witness :
    groupReducer ["c"] [("c", .fn (Ply.sum "v"))]
      [("x", [[("c", .vstr "x"), ("v", .vnum 1)], [("c", .vstr "x"), ("v", .vnum 3)]])]
      = .ok [[("c", .vstr "x")]]
    ∧ getField [("c", .vstr "x")] "c" = .vstr "x" := by
  have h := C10_facet_overwrites_spec_key ["c"] [("c", .fn (Ply.sum "v"))]
    [("x", [[("c", .vstr "x"), ("v", .vnum 1)], [("c", .vstr "x"), ("v", .vnum 3)]])]
    [[("c", .vnum 4)]] "c" (.fn (Ply.sum "v"))
    (by simp) (by simp) (by decide) (by decide)
    (List.Forall₂.cons rfl List.Forall₂.nil)
  exact ⟨h.1, rfl⟩

/-! ## Constructor validation (C4) -/

/-- Spec-side notion of a scalar value (string, number, boolean, null). -/
def isScalar : JSVal → Bool
  | .vnum _ => true
  | .vstr _ => true
  | .vbool _ => true
  | .vnull => true
  | _ => false

/-- A definition following the spec's words, for comparison with the code's
check: a "plain scalar-valued mapping" is a plain object all of whose values
are scalars.  The code's actual test (`Ply.isPlainObj`, i.e.
`typeof d == 'object' && d.constructor == Object`) never inspects the
values. -/
def specScalarValuedMapping : JSVal → Bool
  | .vobj l => l.all (fun kv => isScalar kv.2)
  | _ => false

/-- **C4 counterexample** — an array whose single element is a plain object
with a *non-scalar* value (a nested array) is accepted by the constructor,
although the claim requires every element to be a plain *scalar-valued*
mapping. -/
theorem C4_constructor_counterexample :
    Ply.mkE (.varr [.vobj [("a", .varr [])]]) = .ok (Ply.mk' [[("a", .varr [])]])
    ∧ specScalarValuedMapping (.vobj [("a", .varr [])]) = false :=
  ⟨rfl, rfl⟩

/-- **C4 (amended)** — the constructor fails (with InvalidInput) iff its
argument is not an array or some element fails the plain-object check (which
does not look at the element's values); on success it stores the element
records with mode FLAT, no deferred steps and no facets. -/
theorem C4_constructor_validation (v : JSVal) :
    (Ply.mkE v = .error .invalidInput ↔
      ∀ l : List JSVal, v = .varr l → ∃ x ∈ l, Ply.isPlainObj x = false)
    ∧ ∀ p, Ply.mkE v = .ok p →
        ∃ l : List JSVal, v = .varr l ∧ (∀ x ∈ l, Ply.isPlainObj x = true)
          ∧ p.data = l.map Ply.recOf ∧ p.step = Mode.DATASET
          ∧ p.funcs = [] ∧ p.facets = [] := by
  cases v with
  | varr l =>
      by_cases hall : l.all Ply.isPlainObj
      · constructor
        · simp only [Ply.mkE, hall, if_true]
          constructor
          · intro h
            cases h
          · intro h
            obtain ⟨x, hx, hbad⟩ := h l rfl
            rw [List.all_eq_true.mp hall x hx] at hbad
            cases hbad
        · intro p hp
          simp only [Ply.mkE, hall, if_true, Except.ok.injEq] at hp
          exact ⟨l, rfl, List.all_eq_true.mp hall, by rw [← hp]; rfl, by rw [← hp]; rfl,
            by rw [← hp]; rfl, by rw [← hp]; rfl⟩
      · constructor
        · simp only [Ply.mkE, hall, if_false]
          constructor
          · intro _ l' he
            cases he
            rcases List.all_eq_true.not.mp hall with h
            push_neg at h
            obtain ⟨x, hx, hbad⟩ := h
            exact ⟨x, hx, by simpa using hbad⟩
          · intro _
            rfl
        · intro p hp
          simp [Ply.mkE, hall] at hp
  | vnum n => exact ⟨by simp [Ply.mkE], fun p hp => by simp [Ply.mkE] at hp⟩
  | vstr a => exact ⟨by simp [Ply.mkE], fun p hp => by simp [Ply.mkE] at hp⟩
  | vbool b => exact ⟨by simp [Ply.mkE], fun p hp => by simp [Ply.mkE] at hp⟩
  | vnull => exact ⟨by simp [Ply.mkE], fun p hp => by simp [Ply.mkE] at hp⟩
  | vundef => exact ⟨by simp [Ply.mkE], fun p hp => by simp [Ply.mkE] at hp⟩
  | vobj l => exact ⟨by simp [Ply.mkE], fun p hp => by simp [Ply.mkE] at hp⟩
  | vexotic => exact ⟨by simp [Ply.mkE], fun p hp => by simp [Ply.mkE] at hp⟩

/-- Witness for C4 (amended): a number is rejected, an array of numbers is
rejected, an array of one plain object is accepted. -/
theorem C4_constructor_validation_witness :
    Ply.mkE (.vnum 3) = .error .invalidInput
    ∧ Ply.mkE (.varr [.vnum 1, .vnum 2, .vnum 3]) = .error .invalidInput
    ∧ Ply.mkE (.varr [.vobj [("a", .vnum 1)]]) = .ok (Ply.mk' [[("a", .vnum 1)]]) :=
  ⟨(C4_constructor_validation (.vnum 3)).1.mpr (fun l he => by cases he),
   (C4_constructor_validation (.varr [.vnum 1, .vnum 2, .vnum 3])).1.mpr
     (fun l he => by
        cases he
        exact ⟨.vnum 1, by simp, rfl⟩),
   rfl⟩

/-! ## Sorting lemmas for `quantile` (C9) -/

theorem ordInsert_map {α β : Type} (f : α → β) (leA : α → α → Bool) (leB : β → β → Bool)
    (hcomp : ∀ a b, leA a b = leB (f a) (f b)) (a : α) :
    ∀ l : List α, (ordInsert leA a l).map f = ordInsert leB (f a) (l.map f) := by
  intro l
  induction l with
  | nil => rfl
  | cons b t ih =>
      simp only [ordInsert, hcomp, List.map_cons]
      by_cases h : leB (f a) (f b) = true
      · simp [h]
      · rw [Bool.not_eq_true] at h
        simp [h, ih]

theorem isort_map {α β : Type} (f : α → β) (leA : α → α → Bool) (leB : β → β → Bool)
    (hcomp : ∀ a b, leA a b = leB (f a) (f b)) :
    ∀ l : List α, (isort leA l).map f = isort leB (l.map f) := by
  intro l
  induction l with
  | nil => rfl
  | cons a t ih =>
      simp only [isort, List.map_cons]
      rw [ordInsert_map f leA leB hcomp, ih]

theorem perm_ordInsert {α : Type} (le : α → α → Bool) (a : α) :
    ∀ l : List α, List.Perm (ordInsert le a l) (a :: l) := by
  intro l
  induction l with
  | nil => exact List.Perm.refl _
  | cons b t ih =>
      simp only [ordInsert]
      by_cases h : le a b = true
      · rw [if_pos h]
      · rw [if_neg h]
        exact (ih.cons b).trans (List.Perm.swap a b t)

theorem perm_isort {α : Type} (le : α → α → Bool) :
    ∀ l : List α, List.Perm (isort le l) l := by
  intro l
  induction l with
  | nil => exact List.Perm.refl _
  | cons a t ih => exact (perm_ordInsert le a (isort le t)).trans (ih.cons a)

theorem length_isort {α : Type} (le : α → α → Bool) (l : List α) :
    (isort le l).length = l.length :=
  (perm_isort le l).length_eq

/-- The comparator order used on integers. -/
def intLe (a b : Int) : Bool := decide (a ≤ b)

theorem sorted_ordInsert_int (a : Int) (l : List Int) (h : l.Sorted (· ≤ ·)) :
    (ordInsert intLe a l).Sorted (· ≤ ·) := by
  induction l with
  | nil => simp [ordInsert]
  | cons b t ih =>
      rw [List.sorted_cons] at h
      simp only [ordInsert]
      by_cases hab : intLe a b = true
      · have hab' : a ≤ b := by simpa [intLe] using hab
        rw [if_pos hab, List.sorted_cons]
        refine ⟨?_, List.sorted_cons.mpr h⟩
        intro x hx
        rcases List.mem_cons.mp hx with he | ht
        · exact he ▸ hab'
        · exact le_trans hab' (h.1 x ht)
      · have hba : b ≤ a := by
          simp only [intLe, decide_eq_true_eq] at hab
          omega
        rw [if_neg hab, List.sorted_cons]
        refine ⟨?_, ih h.2⟩
        intro x hx
        rcases List.mem_cons.mp ((perm_ordInsert intLe a t).mem_iff.mp hx) with he | ht
        · exact he ▸ hba
        · exact h.1 x ht

theorem sorted_isort_int (l : List Int) : (isort intLe l).Sorted (· ≤ ·) := by
  induction l with
  | nil => simp [isort]
  | cons a t ih => exact sorted_ordInsert_int a _ ih

/-- **C9** — `quantile(q, field)` for `q ∈ [0,1]` on a non-empty sequence with
numeric field values returns the field value at index `⌊(n−1)·q⌋` of the
sequence sorted ascending by that field: there is a sorted permutation `vals`
of the field values such that the result is `vals[⌊(n−1)·q⌋]`.  In particular
a one-record sequence returns its single field value for every such `q`. -/
theorem C9_quantile (q : ℚ) (field : String) (arr : List Recd)
    (hq0 : 0 ≤ q) (hq1 : q ≤ 1) (hne : arr ≠ [])
    (hnum : ∀ r ∈ arr, ∃ n : Int, getField r field = .vnum n) :
    (∃ vals : List Int,
        List.Perm vals (arr.map (numField field))
        ∧ vals.Sorted (· ≤ ·)
        ∧ Ply.quantile q field arr
            = .ok (.vnum (vals.getD (⌊((arr.length : ℚ) - 1) * q⌋).toNat 0)))
    ∧ ∀ r, arr = [r] → Ply.quantile q field arr = .ok (getField r field) := by
  constructor
  · have hn : 1 ≤ arr.length := List.length_pos.mpr hne
    have hn1 : (1 : ℚ) ≤ (arr.length : ℚ) := by exact_mod_cast hn
    have h0 : (0 : ℤ) ≤ ⌊((arr.length : ℚ) - 1) * q⌋ := by
      apply Int.le_floor.mpr
      push_cast
      exact mul_nonneg (by linarith) hq0
    have hflt : ⌊((arr.length : ℚ) - 1) * q⌋ < (arr.length : ℤ) := by
      rw [Int.floor_lt]
      have hmul : ((arr.length : ℚ) - 1) * q ≤ (arr.length : ℚ) - 1 :=
        mul_le_of_le_one_right (by linarith) hq1
      push_cast
      linarith
    have hidx : (⌊((arr.length : ℚ) - 1) * q⌋).toNat < (isort (fieldLe field) arr).length := by
      rw [length_isort]
      omega
    refine ⟨isort intLe (arr.map (numField field)), perm_isort _ _, sorted_isort_int _, ?_⟩
    simp only [Ply.quantile]
    rw [if_pos ⟨h0, hidx⟩]
    have hmap : (isort (fieldLe field) arr).map (numField field)
        = isort intLe (arr.map (numField field)) :=
      isort_map (numField field) (fieldLe field) intLe (fun a b => rfl) arr
    set j := (⌊((arr.length : ℚ) - 1) * q⌋).toNat with hj
    have hmem : (isort (fieldLe field) arr).getD j [] ∈ arr := by
      rw [List.getD_eq_getElem _ _ hidx]
      exact (perm_isort (fieldLe field) arr).mem_iff.mp (List.get_mem _ j hidx)
    obtain ⟨m, hm⟩ := hnum _ hmem
    have hnf : numField field ((isort (fieldLe field) arr).getD j []) = m := by
      unfold numField
      rw [hm]
    have hidxm : j < ((isort (fieldLe field) arr).map (numField field)).length := by
      simpa using hidx
    have hvals : (isort intLe (arr.map (numField field))).getD j 0 = m := by
      rw [← hmap, List.getD_eq_getElem _ _ hidxm, List.getElem_map,
        ← List.getD_eq_getElem (isort (fieldLe field) arr) [] hidx]
      exact hnf
    rw [hm, hvals]
  · intro r he
    subst he
    simp only [Ply.quantile, List.length_cons, List.length_nil]
    norm_num [isort, ordInsert]

/-- Witness for C9 at `q = 1/2` on a single record. -/
theorem C9_quantile_witness :
    Ply.quantile (1/2) "a" [[("a", .vnum 5)]] = .ok (.vnum 5) :=
  (C9_quantile (1/2) "a" [[("a", .vnum 5)]] (by norm_num) (by norm_num)
    (by simp)
    (by
      intro r hr
      simp only [List.mem_singleton] at hr
      subst hr
      exact ⟨5, rfl⟩)).2
    [("a", .vnum 5)] rfl

/-! ## Store-level model of `transform` (mutation, aliasing)

The pure model above treats records as immutable values; it cannot even
express the mutation claims (`transform` never mutates the stored source; a
second `transform` sees the same source even after in-place field assignments
by user mappers).  Here records live in an explicit store (`Store`, addresses
are indices, allocation appends) and the in-flight data of `transform` is a
working value of addresses.  A `map` step comes in two flavours reflecting
what a user mapper can do: `mapAssign` mutates the working record in place
(`d => { d[f] = fn(d); return d }`), `mapFresh` builds and returns a new
record.  Aggregators are total functions here — their failure modes are
handled in the pure model and are orthogonal to the frame properties. -/

/-- An address into the store. -/
abbrev Addr := Nat

/-- The store: one cell per allocated record object. -/
abbrev Store := List Recd

/-- Dereference an address. -/
def readA (st : Store) (a : Addr) : Recd := st.getD a []

/-- Overwrite the record at an address. -/
def writeA (st : Store) (a : Addr) (r : Recd) : Store := st.set a r

/-- A reduce-specification entry in the store model (total aggregators). -/
inductive HAgg where
  | fn : (List Recd → JSVal) → HAgg
  | lit : JSVal → HAgg

/-- Evaluate a store-model specification entry. -/
def hEvalEntry (e : HAgg) (arr : List Recd) : JSVal :=
  match e with
  | .fn f => f arr
  | .lit v => v

/-- `reduceData` with total aggregators. -/
def hReduceData (funcs : List (String × HAgg)) (arr : List Recd) : Recd :=
  funcs.foldl (fun dp fe => setField dp fe.1 (hEvalEntry fe.2 arr)) []

/-- A deferred step in the store model.  The boolean is the captured
mode-at-append flag, as in `Step`. -/
inductive HStep where
  | group : List String → HStep
  | mapAssign : Bool → String → (Recd → JSVal) → HStep
  | mapFresh : Bool → (Recd → Recd) → HStep
  | filter : (Recd → Bool) → HStep
  | reduce : Bool → List (String × HAgg) → HStep

/-- The in-flight working value: addresses of the records being transformed,
flat or grouped. -/
inductive HWork where
  | flat : List Addr → HWork
  | grouped : List (String × List Addr) → HWork

/-- All addresses reachable from the working value. -/
def HWork.addrs : HWork → List Addr
  | .flat as => as
  | .grouped g => (g.map Prod.snd).flatten

/-- Allocate records at the end of the store, returning their addresses. -/
def allocMany (st : Store) (rs : List Recd) : Store × List Addr :=
  (st ++ rs, List.range' st.length rs.length)

/-- Allocate records group by group. -/
def allocGrouped (st : Store) : List (String × List Recd) → Store × List (String × List Addr)
  | [] => (st, [])
  | (k, rs) :: rest =>
      let p1 := allocMany st rs
      let p2 := allocGrouped p1.1 rest
      (p2.1, (k, p1.2) :: p2.2)

/-- The grouping step on addresses: partition by the facet signature of the
referenced records (the records themselves are shared, not copied). -/
def groupAddrs (facets : List String) (st : Store) (as : List Addr) :
    List (String × List Addr) :=
  as.foldl (fun g a => pushGroup g (facetKey facets (readA st a)) a) []

/-- Apply an in-place update to every record reachable from a list of
addresses. -/
def writeAll (upd : Recd → Recd) : Store → List Addr → Store
  | st, [] => st
  | st, a :: rest => writeAll upd (writeA st a (upd (readA st a))) rest

/-- The in-place mapper `d => { d[f] = fn(d); return d }`. -/
def mapAssignUpd (f : String) (fn : Recd → JSVal) (r : Recd) : Recd :=
  setField r f (fn r)

/-- Group lookup on addresses. -/
def lookupGroupA (g : List (String × List Addr)) (k : String) : List Addr :=
  (g.lookup k).getD []

/-- Run one deferred step on the store and working value.  Shape mismatches
(which would throw in JavaScript) leave both untouched — in either reading
nothing is written to the store. -/
def runHStep (facets : List String) (s : HStep) : Store × HWork → Store × HWork
  | (st, w) =>
    match s, w with
    | .group f, .flat as => (st, .grouped (groupAddrs f st as))
    | .mapAssign true f fn, .grouped g =>
        (writeAll (mapAssignUpd f fn) st (HWork.grouped g).addrs, .grouped g)
    | .mapAssign false f fn, .flat as =>
        (writeAll (mapAssignUpd f fn) st as, .flat as)
    | .mapFresh true fn, .grouped g =>
        let p := allocGrouped st (g.map (fun kg => (kg.1, kg.2.map (fun a => fn (readA st a)))))
        (p.1, .grouped p.2)
    | .mapFresh false fn, .flat as =>
        let p := allocMany st (as.map (fun a => fn (readA st a)))
        (p.1, .flat p.2)
    | .filter p, .flat as => (st, .flat (as.filter (fun a => p (readA st a))))
    | .reduce false spec, .flat as =>
        (st ++ [hReduceData spec (as.map (readA st))], .flat [st.length])
    | .reduce true spec, .grouped g =>
        let outs := (jsKeys g).map (fun k =>
          let grp := (lookupGroupA g k).map (readA st)
          copyRec (stampFacets facets (grp.headD []) (hReduceData spec grp)))
        let p := allocMany st outs
        (p.1, .flat p.2)
    | _, _ => (st, w)

/-- The pipeline in the store model: source addresses, deferred steps, facet
list. -/
structure HPly where
  data : List Addr
  funcs : List HStep
  facets : List String

/-- Run every deferred step in order. -/
def runHSteps (facets : List String) (steps : List HStep) (sw : Store × HWork) :
    Store × HWork :=
  steps.foldl (fun sw s => runHStep facets s sw) sw

/-- `transform()` in the store model: allocate shallow copies of the source
records, run the deferred steps over them, and read the records reachable
from the final working value out of the final store. -/
def transformH (st : Store) (p : HPly) : Store × List Recd :=
  let p1 := allocMany st (p.data.map (fun a => copyRec (readA st a)))
  let p2 := runHSteps p.facets p.funcs (p1.1, .flat p1.2)
  (p2.1, p2.2.addrs.map (readA p2.1))

/-! ### Frame lemmas: `transform` writes only at or above the pre-existing
store length -/

theorem readA_writeA_ne (st : Store) (a b : Addr) (r : Recd) (h : b ≠ a) :
    readA (writeA st a r) b = readA st b := by
  simp [readA, writeA, List.getD_eq_getElem?_getD,
    List.getElem?_set_ne (fun he => h he.symm)]

theorem readA_writeA_self (st : Store) (a : Addr) (r : Recd) (h : a < st.length) :
    readA (writeA st a r) a = r := by
  simp [readA, writeA, List.getD_eq_getElem?_getD, List.getElem?_set_self', h]

theorem readA_append_below (st ext : Store) (b : Addr) (h : b < st.length) :
    readA (st ++ ext) b = readA st b := by
  simp [readA, List.getD_eq_getElem?_getD, List.getElem?_append, h]

theorem length_writeAll (upd : Recd → Recd) :
    ∀ (as : List Addr) (st : Store), (writeAll upd st as).length = st.length := by
  intro as
  induction as with
  | nil => intro st; rfl
  | cons a rest ih =>
      intro st
      simp only [writeAll]
      rw [ih]
      simp [writeA]

theorem readA_writeAll_below (upd : Recd → Recd) (N : Nat) :
    ∀ (as : List Addr) (st : Store), (∀ a ∈ as, N ≤ a) → ∀ b, b < N →
    readA (writeAll upd st as) b = readA st b := by
  intro as
  induction as with
  | nil => intro st _ b _; rfl
  | cons a rest ih =>
      intro st hall b hb
      simp only [writeAll]
      rw [ih _ (fun x hx => hall x (List.mem_cons_of_mem _ hx)) b hb]
      have ha := hall a (by simp)
      exact readA_writeA_ne st a b _ (Nat.ne_of_lt (lt_of_lt_of_le hb ha))

theorem range'_append_one (s m n : Nat) :
    List.range' s m ++ List.range' (s + m) n = List.range' s (m + n) := by
  have h := List.range'_append s m n 1
  rw [one_mul] at h
  rw [Nat.add_comm m n]
  exact h

theorem allocGrouped_ext : ∀ (gl : List (String × List Recd)) (st : Store),
    ∃ ext, (allocGrouped st gl).1 = st ++ ext := by
  intro gl
  induction gl with
  | nil => intro st; exact ⟨[], by simp [allocGrouped]⟩
  | cons kg rest ih =>
      intro st
      obtain ⟨k, rs⟩ := kg
      obtain ⟨ext, he⟩ := ih (st ++ rs)
      refine ⟨rs ++ ext, ?_⟩
      simp only [allocGrouped, allocMany] at he ⊢
      rw [he, List.append_assoc]

theorem allocGrouped_addrs : ∀ (gl : List (String × List Recd)) (st : Store),
    (((allocGrouped st gl).2.map Prod.snd).flatten)
      = List.range' st.length (gl.map (fun kg => kg.2.length)).sum := by
  intro gl
  induction gl with
  | nil => intro st; simp [allocGrouped]
  | cons kg rest ih =>
      intro st
      obtain ⟨k, rs⟩ := kg
      simp only [allocGrouped, allocMany, List.map_cons, List.flatten_cons]
      rw [ih]
      simp only [List.length_append]
      rw [range'_append_one]
      simp [List.sum_cons]

theorem pushGroup_self {α : Type} (k : String) (xs : List α) (rest : List (String × List α))
    (x : α) : pushGroup ((k, xs) :: rest) k x = (k, xs ++ [x]) :: rest := by
  simp [pushGroup]

theorem pushGroup_ne {α : Type} (k0 k : String) (xs : List α)
    (rest : List (String × List α)) (x : α) (h : k0 ≠ k) :
    pushGroup ((k0, xs) :: rest) k x = (k0, xs) :: pushGroup rest k x := by
  simp [pushGroup, h]

theorem flatten_pushGroup_perm {α : Type} :
    ∀ (g : List (String × List α)) (k : String) (x : α),
    List.Perm (((pushGroup g k x).map Prod.snd).flatten)
      ((g.map Prod.snd).flatten ++ [x]) := by
  intro g
  induction g with
  | nil => intro k x; simp [pushGroup]
  | cons kg rest ih =>
      intro k x
      obtain ⟨k0, xs⟩ := kg
      by_cases h : k0 = k
      · subst h
        rw [pushGroup_self]
        simp only [List.map_cons, List.flatten_cons, List.append_assoc]
        exact List.Perm.append_left xs List.perm_append_comm
      · rw [pushGroup_ne _ _ _ _ _ h]
        simp only [List.map_cons, List.flatten_cons, List.append_assoc]
        exact List.Perm.append_left xs (ih k x)

theorem flatten_foldl_pushGroup_perm {α : Type} (kf : α → String) :
    ∀ (as : List α) (g0 : List (String × List α)),
    List.Perm (((as.foldl (fun g a => pushGroup g (kf a) a) g0).map Prod.snd).flatten)
      ((g0.map Prod.snd).flatten ++ as) := by
  intro as
  induction as with
  | nil => intro g0; simp
  | cons a rest ih =>
      intro g0
      simp only [List.foldl_cons]
      refine (ih (pushGroup g0 (kf a) a)).trans ?_
      refine (List.Perm.append_right rest (flatten_pushGroup_perm g0 (kf a) a)).trans ?_
      rw [List.append_assoc]
      exact List.Perm.refl _

theorem groupAddrs_addrs_perm (f : List String) (st : Store) (as : List Addr) :
    List.Perm ((groupAddrs f st as).map Prod.snd).flatten as := by
  have h := flatten_foldl_pushGroup_perm (fun a => facetKey f (readA st a)) as []
  simpa [groupAddrs] using h

/-- Everything reachable from the working value sits at or above `N`. -/
def WAbove (N : Nat) (w : HWork) : Prop := ∀ a ∈ w.addrs, N ≤ a

theorem runHStep_frame (facets : List String) (N : Nat) (s : HStep) (st : Store) (w : HWork)
    (hw : WAbove N w) (hN : N ≤ st.length) :
    (∀ b, b < N → readA (runHStep facets s (st, w)).1 b = readA st b)
    ∧ WAbove N (runHStep facets s (st, w)).2
    ∧ st.length ≤ (runHStep facets s (st, w)).1.length := by
  cases s with
  | group f =>
      cases w with
      | flat as =>
          refine ⟨fun b hb => rfl, ?_, le_refl _⟩
          intro a ha
          exact hw a ((groupAddrs_addrs_perm f st as).subset ha)
      | grouped g => exact ⟨fun b hb => rfl, hw, le_refl _⟩
  | mapAssign gm fld fn =>
      cases gm with
      | true =>
          cases w with
          | flat as => exact ⟨fun b hb => rfl, hw, le_refl _⟩
          | grouped g =>
              refine ⟨?_, hw, ?_⟩
              · intro b hb
                exact readA_writeAll_below _ N _ st hw b hb
              · show st.length ≤ (writeAll (mapAssignUpd fld fn) st (HWork.grouped g).addrs).length
                rw [length_writeAll]
      | false =>
          cases w with
          | grouped g => exact ⟨fun b hb => rfl, hw, le_refl _⟩
          | flat as =>
              refine ⟨?_, hw, ?_⟩
              · intro b hb
                exact readA_writeAll_below _ N _ st hw b hb
              · show st.length ≤ (writeAll (mapAssignUpd fld fn) st as).length
                rw [length_writeAll]
  | mapFresh gm fn =>
      cases gm with
      | true =>
          cases w with
          | flat as => exact ⟨fun b hb => rfl, hw, le_refl _⟩
          | grouped g =>
              obtain ⟨ext, he⟩ := allocGrouped_ext
                (g.map (fun kg => (kg.1, kg.2.map (fun a => fn (readA st a))))) st
              refine ⟨?_, ?_, ?_⟩
              · intro b hb
                show readA (allocGrouped st _).1 b = readA st b
                rw [he]
                exact readA_append_below st ext b (lt_of_lt_of_le hb hN)
              · intro a ha
                have haddr := allocGrouped_addrs
                  (g.map (fun kg => (kg.1, kg.2.map (fun a => fn (readA st a))))) st
                simp only [runHStep, HWork.addrs] at ha
                rw [haddr, List.mem_range'_1] at ha
                omega
              · show st.length ≤ (allocGrouped st _).1.length
                rw [he]
                simp
      | false =>
          cases w with
          | grouped g => exact ⟨fun b hb => rfl, hw, le_refl _⟩
          | flat as =>
              refine ⟨?_, ?_, ?_⟩
              · intro b hb
                exact readA_append_below st _ b (lt_of_lt_of_le hb hN)
              · intro a ha
                simp only [runHStep, HWork.addrs, allocMany, List.mem_range'_1] at ha
                omega
              · show st.length ≤ (st ++ _).length
                simp
  | filter p =>
      cases w with
      | grouped g => exact ⟨fun b hb => rfl, hw, le_refl _⟩
      | flat as =>
          refine ⟨fun b hb => rfl, ?_, le_refl _⟩
          intro a ha
          exact hw a (List.mem_of_mem_filter ha)
  | reduce gm spec =>
      cases gm with
      | true =>
          cases w with
          | flat as => exact ⟨fun b hb => rfl, hw, le_refl _⟩
          | grouped g =>
              refine ⟨?_, ?_, ?_⟩
              · intro b hb
                exact readA_append_below st _ b (lt_of_lt_of_le hb hN)
              · intro a ha
                simp only [runHStep, HWork.addrs, allocMany, List.mem_range'_1] at ha
                omega
              · show st.length ≤ (st ++ _).length
                simp
      | false =>
          cases w with
          | grouped g => exact ⟨fun b hb => rfl, hw, le_refl _⟩
          | flat as =>
              refine ⟨?_, ?_, ?_⟩
              · intro b hb
                exact readA_append_below st _ b (lt_of_lt_of_le hb hN)
              · intro a ha
                have ha' : a ∈ ([st.length] : List Addr) := ha
                rw [List.mem_singleton] at ha'
                exact le_of_le_of_eq hN ha'.symm
              · show st.length ≤ (st ++ _).length
                simp

theorem runHSteps_frame (facets : List String) (N : Nat) :
    ∀ (steps : List HStep) (st : Store) (w : HWork),
    WAbove N w → N ≤ st.length →
    (∀ b, b < N → readA (runHSteps facets steps (st, w)).1 b = readA st b)
    ∧ WAbove N (runHSteps facets steps (st, w)).2
    ∧ st.length ≤ (runHSteps facets steps (st, w)).1.length := by
  intro steps
  induction steps with
  | nil => intro st w hw hN; exact ⟨fun b hb => rfl, hw, le_refl _⟩
  | cons s rest ih =>
      intro st w hw hN
      obtain ⟨h1, h2, h3⟩ := runHStep_frame facets N s st w hw hN
      obtain ⟨g1, g2, g3⟩ := ih (runHStep facets s (st, w)).1 (runHStep facets s (st, w)).2
        h2 (le_trans hN h3)
      exact ⟨fun b hb => (g1 b hb).trans (h1 b hb), g2, le_trans h3 g3⟩

/-! ### The value-level view of the store model

Dereferencing every working address gives a value-level `Data`; each store
step corresponds to a pure function on that view (`pureHStep`).  Since fresh
`transform` calls re-copy the source, this simulation pins the output of
`transformH` to a pure function of the source record values — which is what
makes repeated `transform` calls agree. -/

/-- Dereference every address of a working value. -/
def viewW (st : Store) : HWork → Data
  | .flat as => .flat (as.map (readA st))
  | .grouped g => .grouped (g.map (fun kg => (kg.1, kg.2.map (readA st))))

/-- The value-level meaning of one store-model step. -/
def pureHStep (facets : List String) (s : HStep) (d : Data) : Data :=
  match s, d with
  | .group f, .flat l => .grouped (groupBy f l)
  | .mapAssign true f fn, .grouped g =>
      .grouped (g.map (fun kg => (kg.1, kg.2.map (mapAssignUpd f fn))))
  | .mapAssign false f fn, .flat l => .flat (l.map (mapAssignUpd f fn))
  | .mapFresh true fn, .grouped g => .grouped (g.map (fun kg => (kg.1, kg.2.map fn)))
  | .mapFresh false fn, .flat l => .flat (l.map fn)
  | .filter p, .flat l => .flat (l.filter p)
  | .reduce false spec, .flat l => .flat [hReduceData spec l]
  | .reduce true spec, .grouped g =>
      .flat ((jsKeys g).map (fun k =>
        copyRec (stampFacets facets ((lookupGroup g k).headD [])
          (hReduceData spec (lookupGroup g k)))))
  | _, d => d

/-- Replay every step at the value level. -/
def pureHRun (facets : List String) (steps : List HStep) (d : Data) : Data :=
  steps.foldl (fun d s => pureHStep facets s d) d

/-- All records of a `Data` value, in order. -/
def Data.recs : Data → List Recd
  | .flat l => l
  | .grouped g => (g.map Prod.snd).flatten

/-- Working addresses are in bounds and name pairwise distinct cells. -/
def HValid (st : Store) (w : HWork) : Prop :=
  (∀ a ∈ w.addrs, a < st.length) ∧ w.addrs.Nodup

theorem pushGroup_map {α β : Type} (h : α → β) :
    ∀ (g : List (String × List α)) (k : String) (x : α),
    (pushGroup g k x).map (fun kg => (kg.1, kg.2.map h))
      = pushGroup (g.map (fun kg => (kg.1, kg.2.map h))) k (h x) := by
  intro g
  induction g with
  | nil => intro k x; simp [pushGroup]
  | cons kg rest ih =>
      intro k x
      obtain ⟨k0, xs⟩ := kg
      by_cases hk : k0 = k
      · subst hk
        rw [pushGroup_self]
        simp only [List.map_cons]
        rw [pushGroup_self]
        simp
      · rw [pushGroup_ne _ _ _ _ _ hk]
        simp only [List.map_cons]
        rw [pushGroup_ne _ _ _ _ _ hk, ih]

theorem groupAddrs_view (f : List String) (st : Store) (as : List Addr) :
    (groupAddrs f st as).map (fun kg => (kg.1, kg.2.map (readA st)))
      = groupBy f (as.map (readA st)) := by
  have aux : ∀ (as : List Addr) (g0 : List (String × List Addr)),
      (as.foldl (fun g a => pushGroup g (facetKey f (readA st a)) a) g0).map
          (fun kg => (kg.1, kg.2.map (readA st)))
        = (as.map (readA st)).foldl (fun g r => pushGroup g (facetKey f r) r)
          (g0.map (fun kg => (kg.1, kg.2.map (readA st)))) := by
    intro as
    induction as with
    | nil => intro g0; rfl
    | cons a rest ih =>
        intro g0
        simp only [List.foldl_cons, List.map_cons]
        rw [ih, pushGroup_map]
  exact aux as []

theorem readA_writeAll_mem (upd : Recd → Recd) :
    ∀ (as : List Addr) (st : Store), as.Nodup → (∀ a ∈ as, a < st.length) →
    (∀ a ∈ as, readA (writeAll upd st as) a = upd (readA st a))
    ∧ (∀ b, b ∉ as → readA (writeAll upd st as) b = readA st b) := by
  intro as
  induction as with
  | nil => intro st _ _; exact ⟨fun a ha => absurd ha (List.not_mem_nil a), fun b _ => rfl⟩
  | cons a rest ih =>
      intro st hnd hlt
      have hnd' := List.nodup_cons.mp hnd
      have hlt' : ∀ x ∈ rest, x < (writeA st a (upd (readA st a))).length := by
        intro x hx
        have : (writeA st a (upd (readA st a))).length = st.length := by simp [writeA]
        rw [this]
        exact hlt x (List.mem_cons_of_mem _ hx)
      obtain ⟨ihm, ihnot⟩ := ih (writeA st a (upd (readA st a))) hnd'.2 hlt'
      refine ⟨?_, ?_⟩
      · intro x hx
        rcases List.mem_cons.mp hx with he | hm
        · subst he
          show readA (writeAll upd (writeA st x (upd (readA st x))) rest) x = upd (readA st x)
          rw [ihnot x hnd'.1]
          exact readA_writeA_self st x _ (hlt x (by simp))
        · show readA (writeAll upd (writeA st a (upd (readA st a))) rest) x = upd (readA st x)
          rw [ihm x hm]
          congr 1
          exact readA_writeA_ne st a x _ (fun he => hnd'.1 (he ▸ hm))
      · intro b hb
        have hba : b ≠ a := fun he => hb (by simp [he])
        have hbrest : b ∉ rest := fun hm => hb (List.mem_cons_of_mem _ hm)
        show readA (writeAll upd (writeA st a (upd (readA st a))) rest) b = readA st b
        rw [ihnot b hbrest]
        exact readA_writeA_ne st a b _ hba

theorem readA_append_self (st : Store) (r : Recd) (ext : Store) :
    readA (st ++ r :: ext) st.length = r := by
  simp [readA, List.getD_eq_getElem?_getD,
    List.getElem?_append_right (le_refl st.length)]

theorem allocMany_view : ∀ (rs : List Recd) (st : Store),
    (allocMany st rs).2.map (readA (allocMany st rs).1) = rs := by
  intro rs
  induction rs with
  | nil => intro st; rfl
  | cons r rest ih =>
      intro st
      show (List.range' st.length (rest.length + 1)).map (readA (st ++ r :: rest)) = r :: rest
      have h1 : st ++ r :: rest = (st ++ [r]) ++ rest := by simp
      have h2 : st.length + 1 = (st ++ [r]).length := by simp
      rw [h1, List.range'_succ st.length rest.length 1, List.map_cons]
      congr 1
      · rw [readA_append_below (st ++ [r]) rest st.length (by simp)]
        exact readA_append_self st r []
      · rw [h2]
        exact ih (st ++ [r])

theorem allocGrouped_view : ∀ (gl : List (String × List Recd)) (st : Store),
    (allocGrouped st gl).2.map (fun kg => (kg.1, kg.2.map (readA (allocGrouped st gl).1)))
      = gl := by
  intro gl
  induction gl with
  | nil => intro st; rfl
  | cons kg rest ih =>
      intro st
      obtain ⟨k, rs⟩ := kg
      simp only [allocGrouped, List.map_cons]
      congr 1
      · obtain ⟨ext, he⟩ := allocGrouped_ext rest (allocMany st rs).1
        congr 1
        have hcg : ∀ a ∈ (allocMany st rs).2,
            readA (allocGrouped (allocMany st rs).1 rest).1 a
              = readA (allocMany st rs).1 a := by
          intro a ha
          rw [he]
          apply readA_append_below
          have hmem : a ∈ List.range' st.length rs.length := ha
          rw [List.mem_range'_1] at hmem
          show a < (st ++ rs).length
          simp only [List.length_append]
          exact hmem.2
        rw [List.map_congr_left hcg]
        exact allocMany_view rs st
      · exact ih (allocMany st rs).1

theorem lookup_map_snd {α β : Type} (h : List α → List β) :
    ∀ (g : List (String × List α)) (k : String),
    (g.map (fun kg => (kg.1, h kg.2))).lookup k = (g.lookup k).map h := by
  intro g
  induction g with
  | nil => intro k; rfl
  | cons kg rest ih =>
      intro k
      obtain ⟨k0, xs⟩ := kg
      by_cases hk : k = k0
      · have hb : (k == k0) = true := by simpa using hk
        simp [List.lookup, hb]
      · have hb : (k == k0) = false := by simpa using hk
        simp [List.lookup, hb, ih]

theorem jsKeys_map_snd {α β : Type} (h : α → β) (g : List (String × α)) :
    jsKeys (g.map (fun kg => (kg.1, h kg.2))) = jsKeys g := by
  have hfst : (g.map (fun kg => (kg.1, h kg.2))).map Prod.fst = g.map Prod.fst := by
    rw [List.map_map]
    rfl
  simp [jsKeys, hfst]

theorem viewW_recs (st : Store) (w : HWork) :
    (viewW st w).recs = w.addrs.map (readA st) := by
  cases w with
  | flat as => rfl
  | grouped g =>
      show ((g.map (fun kg => (kg.1, kg.2.map (readA st)))).map Prod.snd).flatten
        = ((g.map Prod.snd).flatten).map (readA st)
      rw [List.map_map]
      rw [show g.map (Prod.snd ∘ fun kg : String × List Addr => (kg.1, kg.2.map (readA st)))
        = (g.map Prod.snd).map (List.map (readA st)) by rw [List.map_map]; rfl]
      exact (List.map_flatten (readA st) (g.map Prod.snd)).symm

theorem allocGrouped_length : ∀ (gl : List (String × List Recd)) (st : Store),
    (allocGrouped st gl).1.length
      = st.length + (gl.map (fun kg => kg.2.length)).sum := by
  intro gl
  induction gl with
  | nil => intro st; simp [allocGrouped]
  | cons kg rest ih =>
      intro st
      obtain ⟨k, rs⟩ := kg
      simp only [allocGrouped, List.map_cons, List.sum_cons]
      rw [ih]
      simp only [allocMany, List.length_append]
      omega

theorem lookupGroup_view (st : Store) (g : List (String × List Addr)) (k : String) :
    lookupGroup (g.map (fun kg => (kg.1, kg.2.map (readA st)))) k
      = (lookupGroupA g k).map (readA st) := by
  unfold lookupGroup lookupGroupA
  rw [lookup_map_snd]
  cases g.lookup k <;> rfl

theorem runHStep_view (facets : List String) (s : HStep) (st : Store) (w : HWork)
    (hv : HValid st w) :
    viewW (runHStep facets s (st, w)).1 (runHStep facets s (st, w)).2
      = pureHStep facets s (viewW st w)
    ∧ HValid (runHStep facets s (st, w)).1 (runHStep facets s (st, w)).2 := by
  obtain ⟨hbound, hnd⟩ := hv
  cases s with
  | group f =>
      cases w with
      | grouped g => exact ⟨rfl, hbound, hnd⟩
      | flat as =>
          refine ⟨?_, ?_, ?_⟩
          · show Data.grouped ((groupAddrs f st as).map (fun kg => (kg.1, kg.2.map (readA st))))
              = Data.grouped (groupBy f (as.map (readA st)))
            rw [groupAddrs_view]
          · intro a ha
            exact hbound a ((groupAddrs_addrs_perm f st as).subset ha)
          · exact ((groupAddrs_addrs_perm f st as).nodup_iff).mpr hnd
  | mapAssign gm fld fn =>
      cases gm with
      | true =>
          cases w with
          | flat as => exact ⟨rfl, hbound, hnd⟩
          | grouped g =>
              obtain ⟨hmem, _⟩ := readA_writeAll_mem (mapAssignUpd fld fn)
                (HWork.grouped g).addrs st hnd hbound
              refine ⟨?_, ?_, hnd⟩
              · show Data.grouped (g.map (fun kg => (kg.1, kg.2.map
                    (readA (writeAll (mapAssignUpd fld fn) st (HWork.grouped g).addrs)))))
                  = Data.grouped ((g.map (fun kg => (kg.1, kg.2.map (readA st)))).map
                      (fun kg => (kg.1, kg.2.map (mapAssignUpd fld fn))))
                rw [List.map_map]
                congr 1
                apply List.map_congr_left
                intro kg hkg
                show (kg.1, kg.2.map (readA (writeAll (mapAssignUpd fld fn) st
                    (HWork.grouped g).addrs)))
                  = (kg.1, (kg.2.map (readA st)).map (mapAssignUpd fld fn))
                rw [List.map_map]
                congr 1
                apply List.map_congr_left
                intro a ha
                refine hmem a ?_
                show a ∈ ((g.map Prod.snd).flatten)
                rw [List.mem_flatten]
                exact ⟨kg.2, List.mem_map.mpr ⟨kg, hkg, rfl⟩, ha⟩
              · intro a ha
                have hl : (writeAll (mapAssignUpd fld fn) st (HWork.grouped g).addrs).length
                    = st.length := length_writeAll _ _ _
                show a < (writeAll (mapAssignUpd fld fn) st (HWork.grouped g).addrs).length
                rw [hl]
                exact hbound a ha
      | false =>
          cases w with
          | grouped g => exact ⟨rfl, hbound, hnd⟩
          | flat as =>
              obtain ⟨hmem, _⟩ := readA_writeAll_mem (mapAssignUpd fld fn) as st hnd hbound
              refine ⟨?_, ?_, hnd⟩
              · show Data.flat (as.map (readA (writeAll (mapAssignUpd fld fn) st as)))
                  = Data.flat ((as.map (readA st)).map (mapAssignUpd fld fn))
                rw [List.map_map]
                congr 1
                exact List.map_congr_left hmem
              · intro a ha
                have hl : (writeAll (mapAssignUpd fld fn) st as).length = st.length :=
                  length_writeAll _ _ _
                show a < (writeAll (mapAssignUpd fld fn) st as).length
                rw [hl]
                exact hbound a ha
  | mapFresh gm fn =>
      cases gm with
      | true =>
          cases w with
          | flat as => exact ⟨rfl, hbound, hnd⟩
          | grouped g =>
              refine ⟨?_, ?_, ?_⟩
              · show Data.grouped ((allocGrouped st (g.map (fun kg =>
                    (kg.1, kg.2.map (fun a => fn (readA st a)))))).2.map
                      (fun kg => (kg.1, kg.2.map (readA (allocGrouped st (g.map (fun kg =>
                        (kg.1, kg.2.map (fun a => fn (readA st a)))))).1))))
                  = Data.grouped ((g.map (fun kg => (kg.1, kg.2.map (readA st)))).map
                      (fun kg => (kg.1, kg.2.map fn)))
                rw [allocGrouped_view, List.map_map]
                congr 1
                apply List.map_congr_left
                intro kg _
                show (kg.1, kg.2.map (fun a => fn (readA st a)))
                  = (kg.1, (kg.2.map (readA st)).map fn)
                rw [List.map_map]
                rfl
              · intro a ha
                have haddr := allocGrouped_addrs (g.map (fun kg =>
                  (kg.1, kg.2.map (fun a => fn (readA st a))))) st
                have ha' : a ∈ List.range' st.length ((g.map (fun kg =>
                    (kg.1, kg.2.map (fun a => fn (readA st a))))).map
                      (fun kg => kg.2.length)).sum := by
                  rw [← haddr]
                  exact ha
                rw [List.mem_range'_1] at ha'
                show a < (allocGrouped st (g.map (fun kg =>
                  (kg.1, kg.2.map (fun a => fn (readA st a)))))).1.length
                rw [allocGrouped_length]
                exact ha'.2
              · show (((allocGrouped st _).2.map Prod.snd).flatten).Nodup
                rw [allocGrouped_addrs]
                exact List.nodup_range' _ _
      | false =>
          cases w with
          | grouped g => exact ⟨rfl, hbound, hnd⟩
          | flat as =>
              refine ⟨?_, ?_, ?_⟩
              · show Data.flat ((allocMany st (as.map (fun a => fn (readA st a)))).2.map
                    (readA (allocMany st (as.map (fun a => fn (readA st a)))).1))
                  = Data.flat ((as.map (readA st)).map fn)
                rw [allocMany_view, List.map_map]
                rfl
              · intro a ha
                have ha' : a ∈ List.range' st.length (as.map (fun a => fn (readA st a))).length :=
                  ha
                rw [List.mem_range'_1] at ha'
                show a < (st ++ as.map (fun a => fn (readA st a))).length
                rw [List.length_append, List.length_map]
                rw [List.length_map] at ha'
                exact ha'.2
              · exact List.nodup_range' _ _
  | filter p =>
      cases w with
      | grouped g => exact ⟨rfl, hbound, hnd⟩
      | flat as =>
          refine ⟨?_, ?_, ?_⟩
          · show Data.flat ((as.filter (fun a => p (readA st a))).map (readA st))
              = Data.flat ((as.map (readA st)).filter p)
            rw [List.filter_map]
            rfl
          · intro a ha
            exact hbound a (List.mem_of_mem_filter ha)
          · exact hnd.filter _
  | reduce gm spec =>
      cases gm with
      | false =>
          cases w with
          | grouped g => exact ⟨rfl, hbound, hnd⟩
          | flat as =>
              refine ⟨?_, ?_, ?_⟩
              · show Data.flat ([st.length].map
                    (readA (st ++ [hReduceData spec (as.map (readA st))])))
                  = Data.flat [hReduceData spec (as.map (readA st))]
                simp only [List.map_cons, List.map_nil]
                rw [readA_append_self st _ []]
              · intro a ha
                have ha' : a ∈ ([st.length] : List Addr) := ha
                rw [List.mem_singleton] at ha'
                show a < (st ++ [hReduceData spec (as.map (readA st))]).length
                rw [ha']
                simp
              · exact List.nodup_singleton _
      | true =>
          cases w with
          | flat as => exact ⟨rfl, hbound, hnd⟩
          | grouped g =>
              refine ⟨?_, ?_, ?_⟩
              · show Data.flat ((allocMany st ((jsKeys g).map (fun k =>
                    copyRec (stampFacets facets
                      (((lookupGroupA g k).map (readA st)).headD [])
                      (hReduceData spec ((lookupGroupA g k).map (readA st))))))).2.map
                        (readA (allocMany st ((jsKeys g).map (fun k =>
                          copyRec (stampFacets facets
                            (((lookupGroupA g k).map (readA st)).headD [])
                            (hReduceData spec ((lookupGroupA g k).map (readA st))))))).1))
                  = pureHStep facets (HStep.reduce true spec)
                      (viewW st (HWork.grouped g))
                rw [allocMany_view]
                show _ = Data.flat ((jsKeys (g.map (fun kg => (kg.1, kg.2.map (readA st))))).map
                    (fun k => copyRec (stampFacets facets
                      ((lookupGroup (g.map (fun kg => (kg.1, kg.2.map (readA st)))) k).headD [])
                      (hReduceData spec
                        (lookupGroup (g.map (fun kg => (kg.1, kg.2.map (readA st)))) k)))))
                rw [jsKeys_map_snd]
                congr 1
                apply List.map_congr_left
                intro k _
                rw [lookupGroup_view]
              · intro a ha
                have ha' : a ∈ List.range' st.length ((jsKeys g).map (fun k =>
                    copyRec (stampFacets facets
                      (((lookupGroupA g k).map (readA st)).headD [])
                      (hReduceData spec ((lookupGroupA g k).map (readA st)))))).length := ha
                rw [List.mem_range'_1] at ha'
                show a < (st ++ (jsKeys g).map (fun k =>
                    copyRec (stampFacets facets
                      (((lookupGroupA g k).map (readA st)).headD [])
                      (hReduceData spec ((lookupGroupA g k).map (readA st)))))).length
                rw [List.length_append]
                exact ha'.2
              · exact List.nodup_range' _ _

theorem runHSteps_view (facets : List String) :
    ∀ (steps : List HStep) (st : Store) (w : HWork), HValid st w →
    viewW (runHSteps facets steps (st, w)).1 (runHSteps facets steps (st, w)).2
      = pureHRun facets steps (viewW st w)
    ∧ HValid (runHSteps facets steps (st, w)).1 (runHSteps facets steps (st, w)).2 := by
  intro steps
  induction steps with
  | nil => intro st w hv; exact ⟨rfl, hv⟩
  | cons s rest ih =>
      intro st w hv
      obtain ⟨h1, h2⟩ := runHStep_view facets s st w hv
      obtain ⟨g1, g2⟩ := ih (runHStep facets s (st, w)).1 (runHStep facets s (st, w)).2 h2
      refine ⟨?_, g2⟩
      show viewW (runHSteps facets rest (runHStep facets s (st, w))).1
          (runHSteps facets rest (runHStep facets s (st, w))).2
        = pureHRun facets rest (pureHStep facets s (viewW st w))
      rw [← h1]
      exact g1

/-- `transform` leaves every pre-existing store cell untouched. -/
theorem transformH_frame (st : Store) (p : HPly) (b : Addr) (hb : b < st.length) :
    readA (transformH st p).1 b = readA st b := by
  obtain ⟨h1, _, _⟩ := runHSteps_frame p.facets st.length p.funcs
    (st ++ p.data.map (fun a => copyRec (readA st a)))
    (.flat (List.range' st.length (p.data.map (fun a => copyRec (readA st a))).length))
    (fun a ha => by
      have h : a ∈ List.range' st.length
          (p.data.map (fun a => copyRec (readA st a))).length := ha
      rw [List.mem_range'_1] at h
      exact h.1)
    (by simp)
  exact (h1 b hb).trans (readA_append_below st _ b hb)

/-- The output of `transform` in the store model is a pure function of the
(copied) source record values and the deferred steps. -/
theorem transformH_recs (st : Store) (p : HPly) :
    (transformH st p).2
      = (pureHRun p.facets p.funcs
          (.flat (p.data.map (fun a => copyRec (readA st a))))).recs := by
  have hval : HValid (st ++ p.data.map (fun a => copyRec (readA st a)))
      (.flat (List.range' st.length
        (p.data.map (fun a => copyRec (readA st a))).length)) := by
    constructor
    · intro a ha
      have h : a ∈ List.range' st.length
          (p.data.map (fun a => copyRec (readA st a))).length := ha
      rw [List.mem_range'_1] at h
      show a < (st ++ p.data.map (fun a => copyRec (readA st a))).length
      rw [List.length_append]
      exact h.2
    · exact List.nodup_range' _ _
  obtain ⟨h1, _⟩ := runHSteps_view p.facets p.funcs
    (st ++ p.data.map (fun a => copyRec (readA st a)))
    (.flat (List.range' st.length
      (p.data.map (fun a => copyRec (readA st a))).length)) hval
  have hout : (transformH st p).2
      = (viewW (runHSteps p.facets p.funcs
          (st ++ p.data.map (fun a => copyRec (readA st a)),
            .flat (List.range' st.length
              (p.data.map (fun a => copyRec (readA st a))).length))).1
        (runHSteps p.facets p.funcs
          (st ++ p.data.map (fun a => copyRec (readA st a)),
            .flat (List.range' st.length
              (p.data.map (fun a => copyRec (readA st a))).length))).2).recs :=
    (viewW_recs _ _).symm
  rw [hout, h1]
  have hinit : viewW (st ++ p.data.map (fun a => copyRec (readA st a)))
      (.flat (List.range' st.length
        (p.data.map (fun a => copyRec (readA st a))).length))
      = .flat (p.data.map (fun a => copyRec (readA st a))) := by
    show Data.flat ((List.range' st.length
        (p.data.map (fun a => copyRec (readA st a))).length).map
          (readA (st ++ p.data.map (fun a => copyRec (readA st a)))))
      = Data.flat (p.data.map (fun a => copyRec (readA st a)))
    congr 1
    exact allocMany_view (p.data.map (fun a => copyRec (readA st a))) st
  rw [hinit]

/-- **C5** — `transform` never mutates the stored source records: every store
cell that existed before the call — in particular every source record of the
pipeline — holds the identical record afterwards, whatever the chain of
deferred steps, including `mapAssign` steps whose mappers assign new fields
onto the working records in place.  `transform` only ever writes to the fresh
one-level-deep copies it allocates (and to cells allocated after them). -/
theorem C5_transform_never_mutates_source (st : Store) (p : HPly) (b : Addr)
    (hb : b < st.length) :
    readA (transformH st p).1 b = readA st b :=
  transformH_frame st p b hb

/-- Witness for C5: a `map` step that assigns field "x" in place; the source
record at address 0 afterwards still has no "x" field. -/
theorem C5_transform_never_mutates_source_witness :
    readA (transformH [[("a", .vnum 1)]]
      ⟨[0], [HStep.mapAssign false "x" (fun _ => .vnum 7)], []⟩).1 0
      = [("a", .vnum 1)] :=
  (C5_transform_never_mutates_source [[("a", .vnum 1)]]
    ⟨[0], [HStep.mapAssign false "x" (fun _ => .vnum 7)], []⟩ 0 (by decide)).trans rfl

/-- **C6** — two successive `transform` calls without an intervening `reset`
produce identical outputs: the deferred steps are not consumed, re-run over a
fresh copy of the source, and the first call left the source records
untouched, so no state accumulates between the calls. -/
theorem C6_transform_idempotent (st : Store) (p : HPly)
    (hdata : ∀ a ∈ p.data, a < st.length) :
    (transformH (transformH st p).1 p).2 = (transformH st p).2 := by
  rw [transformH_recs, transformH_recs]
  have hmaps : p.data.map (fun a => copyRec (readA (transformH st p).1 a))
      = p.data.map (fun a => copyRec (readA st a)) := by
    apply List.map_congr_left
    intro a ha
    rw [transformH_frame st p a (hdata a ha)]
  rw [hmaps]

/-- Witness for C6 on a concrete pipeline with an in-place assigning mapper. -/
theorem C6_transform_idempotent_witness :
    (transformH (transformH [[("a", .vnum 1)], [("a", .vnum 2)]]
        ⟨[0, 1], [HStep.mapAssign false "x" (fun r => getField r "a")], []⟩).1
      ⟨[0, 1], [HStep.mapAssign false "x" (fun r => getField r "a")], []⟩).2
      = (transformH [[("a", .vnum 1)], [("a", .vnum 2)]]
          ⟨[0, 1], [HStep.mapAssign false "x" (fun r => getField r "a")], []⟩).2 :=
  C6_transform_idempotent [[("a", .vnum 1)], [("a", .vnum 2)]]
    ⟨[0, 1], [HStep.mapAssign false "x" (fun r => getField r "a")], []⟩
    (by decide)

end PlyJS
